import Mathlib

/-
Verification of the letmarkdown document tree, membership rules and publish
pipeline.  The definitions below are a shallow embedding of the TypeScript
sources (src/store/documentStore.ts, src/store/projectStore.ts, the
project_members row-level-security policies of the SQL schema, and the
publish Supabase Edge Function).  Machine integers of the source are modelled
as Int/Nat; fallible persistence calls are modelled by explicit Bool flags
(the success/error branch taken by the corresponding awaited call).
-/

namespace LetMarkdown

/-- A row of the documents table, restricted to the fields the store logic
reads (created_by and the timestamps are never inspected by it). -/
structure Document where
  id : String
  project_id : String
  parent_id : Option String
  title : String
  content : String
  is_folder : Bool
  is_published : Bool
  sort_order : Int
  deriving DecidableEq

/-- DocumentTreeNode of types/database.ts: a document together with its
child subtrees. -/
inductive TreeNode where
  | node (doc : Document) (children : List TreeNode) : TreeNode

/-- The document stored at the top of a tree node. -/
def rootDoc : TreeNode → Document
  | TreeNode.node d _ => d

/-- The sort key used by buildDocumentTree's sortNodes:
(a, b) => a.sort_order - b.sort_order. -/
def nodeOrder (t : TreeNode) : Int :=
  (rootDoc t).sort_order

/-- Stable insertion of a node into a list sorted ascending by sort_order
(a node coming earlier in the original array stays before later nodes with
an equal sort_order, as ECMAScript Array.prototype.sort guarantees). -/
def insertNode (t : TreeNode) : List TreeNode → List TreeNode
  | [] => [t]
  | u :: us => if nodeOrder u ≤ nodeOrder t then u :: insertNode t us else t :: u :: us

/-- The stable ascending sort by sort_order performed by sortNodes. -/
def sortByOrder : List TreeNode → List TreeNode
  | [] => []
  | t :: ts => insertNode t (sortByOrder ts)

/-- The effective parent used by buildDocumentTree's second pass: the test
`doc.parent_id && map.has(doc.parent_id)` attaches a node to its parent
exactly when parent_id is a truthy string (non-empty) and some document of
the input carries that id; otherwise the node becomes a root. -/
def attachedParent (docs : List Document) (d : Document) : Option String :=
  d.parent_id.bind
    (fun p => if p ≠ "" ∧ docs.any (fun x => decide (x.id = p)) then some p else none)

/-- The documents that buildDocumentTree attaches below the node of id pid,
in input order. -/
def childDocs (docs : List Document) (pid : String) : List Document :=
  docs.filter (fun d => decide (attachedParent docs d = some pid))

/-- The documents that buildDocumentTree pushes into the roots array. -/
def rootDocs (docs : List Document) : List Document :=
  docs.filter (fun d => decide (attachedParent docs d = none))

/-- One node of the tree built by buildDocumentTree, children sorted
recursively.  The map-based construction of the source terminates because
nodes are shared; the fuel argument makes the same recursion structurally
terminating here, and docs.length fuel is enough whenever the parent
relation is acyclic (ranks strictly decrease towards the roots). -/
def buildNode (docs : List Document) : Nat → Document → TreeNode
  | 0, d => TreeNode.node d []
  | Nat.succ fuel, d =>
      TreeNode.node d (sortByOrder ((childDocs docs d.id).map (fun c => buildNode docs fuel c)))

/-- buildDocumentTree of documentStore.ts: nodes are created for every
document, attached below their parent when `doc.parent_id && map.has(...)`
holds and pushed to roots otherwise, then every sibling list is sorted
ascending by sort_order.  Node identity is by document id, as in the
id-keyed Map of the source. -/
def buildDocumentTree (docs : List Document) : List TreeNode :=
  sortByOrder ((rootDocs docs).map (fun d => buildNode docs docs.length d))

mutual

/-- All documents of a tree, root first. -/
def flattenTree : TreeNode → List Document
  | TreeNode.node d cs => d :: flattenForest cs

/-- All documents of a forest. -/
def flattenForest : List TreeNode → List Document
  | [] => []
  | t :: ts => flattenTree t ++ flattenForest ts

end

mutual

/-- Every (parent document, child document) pair realised by the children
lists of a tree. -/
def childPairsTree : TreeNode → List (Document × Document)
  | TreeNode.node d cs => cs.map (fun c => (d, rootDoc c)) ++ childPairsForest cs

/-- Every (parent document, child document) pair of a forest. -/
def childPairsForest : List TreeNode → List (Document × Document)
  | [] => []
  | t :: ts => childPairsTree t ++ childPairsForest ts

end

/-- The subtree id collection of deleteDocument: collectIds adds the id and
recurses into every document whose parent_id equals it
(`state.documents.filter(d => d.parent_id === id)`).  The source recursion
has no cycle guard and is totalised here with fuel; documents.length fuel
suffices on acyclic states. -/
def collectIds (docs : List Document) : Nat → String → List String
  | 0, i => [i]
  | Nat.succ fuel, i =>
      i :: (docs.filter (fun d => decide (d.parent_id = some i))).flatMap
        (fun c => collectIds docs fuel c.id)

/-- The updatable document columns that the store's updateDocument callers
use (rename, setContent, togglePublished). -/
structure DocumentUpdate where
  title : Option String
  content : Option String
  is_published : Option Bool
  deriving DecidableEq

/-- The update object { is_published: b }. -/
def updPublished (b : Bool) : DocumentUpdate :=
  { title := none, content := none, is_published := some b }

/-- Spreading an update object over a document row ({ ...d, ...updates }). -/
def applyUpdate (d : Document) (u : DocumentUpdate) : Document :=
  { d with
    title := u.title.getD d.title
    content := u.content.getD d.content
    is_published := u.is_published.getD d.is_published }

/-- The zustand document store state (the action closures are modelled as
functions on this state). -/
structure StoreState where
  documents : List Document
  documentTree : List TreeNode
  currentDocument : Option Document
  loading : Bool
  saving : Bool
  error : Option String

/-- updateDocument of documentStore.ts.  dbOk is the branch taken by the
awaited supabase update: true means no error was thrown.  On success the
local rows are remapped, the tree rebuilt and currentDocument kept in sync;
on failure the error message is recorded and false returned. -/
def updateDocument (s : StoreState) (documentId : String) (updates : DocumentUpdate)
    (dbOk : Bool) : Bool × StoreState :=
  if dbOk then
    let newDocuments := s.documents.map
      (fun d => if d.id = documentId then applyUpdate d updates else d)
    (true,
      { s with
        documents := newDocuments
        documentTree := buildDocumentTree newDocuments
        currentDocument :=
          match s.currentDocument with
          | some c => if c.id = documentId then some (applyUpdate c updates) else some c
          | none => none
        saving := false
        error := none })
  else
    (false, { s with saving := false, error := some "update failed" })

/-- togglePublished of documentStore.ts: looks the document up in the local
rows, returns false if absent, and otherwise delegates to updateDocument
with is_published negated.  There is no is_folder test. -/
def togglePublished (s : StoreState) (documentId : String) (dbOk : Bool) :
    Bool × StoreState :=
  match s.documents.find? (fun d => decide (d.id = documentId)) with
  | none => (false, s)
  | some doc => updateDocument s documentId (updPublished (!doc.is_published)) dbOk

/-- moveDocument of documentStore.ts: unconditionally writes parent_id and
sort_order (there is no ancestor walk and no CycleDetected branch), remaps
the local rows and rebuilds the tree; on a database error it only returns
false, leaving the state untouched. -/
def moveDocument (s : StoreState) (documentId : String) (newParentId : Option String)
    (newSortOrder : Int) (dbOk : Bool) : Bool × StoreState :=
  if dbOk then
    let newDocuments := s.documents.map
      (fun d =>
        if d.id = documentId then
          { d with parent_id := newParentId, sort_order := newSortOrder }
        else d)
    (true, { s with documents := newDocuments, documentTree := buildDocumentTree newDocuments })
  else
    (false, s)

/-- deleteDocument of documentStore.ts: on database success the local state
drops every row whose id was collected by collectIds and rebuilds the tree;
currentDocument is cleared when it was inside the removed subtree. -/
def deleteDocument (s : StoreState) (documentId : String) (dbOk : Bool) :
    Bool × StoreState :=
  if dbOk then
    let idsToRemove := collectIds s.documents s.documents.length documentId
    let newDocuments := s.documents.filter (fun d => decide (¬ d.id ∈ idsToRemove))
    (true,
      { s with
        documents := newDocuments
        documentTree := buildDocumentTree newDocuments
        currentDocument :=
          match s.currentDocument with
          | some c => if c.id ∈ idsToRemove then none else some c
          | none => none
        loading := false
        error := none })
  else
    (false, { s with loading := false, error := some "delete failed" })

/-- The normalisation `docData.parent_id || null` applied by createDocument
before querying siblings: a missing or empty parent collapses to null. -/
def normParent (p : Option String) : Option String :=
  match p with
  | none => none
  | some s => if s = "" then none else some s

/-- The sibling query of createDocument,
.eq("project_id", ...).eq("parent_id", docData.parent_id || null), as
PostgREST executes it.  For a non-null parent the filter is plain equality
on the column.  For a null parent, supabase-js serialises the filter as
parent_id=eq.null, and PostgREST never turns an eq filter into IS NULL
(the null filter is is.null): on this UUID column the request either
errors on the cast or matches no rows; the code destructures only { data },
so either way the sibling result is nothing and the ?? -1 fallback of the
caller applies.  Hence the root-sibling query result is empty. -/
def siblingDocs (docs : List Document) (projectId : String) (parentId : Option String) :
    List Document :=
  match normParent parentId with
  | none => []
  | some p =>
      docs.filter (fun d => decide (d.project_id = projectId ∧ d.parent_id = some p))

/-- The sort_order assigned by createDocument: the sibling query is ordered
descending by sort_order with limit 1, so siblings?.[0]?.sort_order ?? -1 is
the greatest sibling order or -1, and the new row gets that plus one. -/
def createSortOrder (docs : List Document) (projectId : String) (parentId : Option String) :
    Int :=
  (((siblingDocs docs projectId parentId).map (fun d => d.sort_order)).max?).getD (-1) + 1

/-- The ancestor-or-self relation generated by a parent assignment
par : Document → Option String over a document set: e is below root id r
when e carries id r, or e's parent chain reaches a document below r.  This
is the specification-side reading of "transitive descendants" /
"documents whose ancestor chain includes id". -/
inductive DescOrSelf (docs : List Document) (par : Document → Option String)
    (r : String) : Document → Prop
  | base (e : Document) : e ∈ docs → e.id = r → DescOrSelf docs par r e
  | step (p c : Document) : DescOrSelf docs par r p → c ∈ docs →
      par c = some p.id → DescOrSelf docs par r c

/-- The raw parent edges of the documents table (used by deleteDocument). -/
def rawParent (d : Document) : Option String :=
  d.parent_id

/-- Markdown escaping, first replace of markdownToHtml:
html.replace(slash-ampersand-global, "&amp;").  The inserted replacement is
not rescanned, as with String.prototype.replace. -/
def replaceAmp : List Char → List Char
  | [] => []
  | c :: cs =>
      if c = '&' then '&' :: 'a' :: 'm' :: 'p' :: ';' :: replaceAmp cs
      else c :: replaceAmp cs

/-- Second replace of the escape step: "<" to "&lt;". -/
def replaceLt : List Char → List Char
  | [] => []
  | c :: cs =>
      if c = '<' then '&' :: 'l' :: 't' :: ';' :: replaceLt cs
      else c :: replaceLt cs

/-- Third replace of the escape step: ">" to "&gt;". -/
def replaceGt : List Char → List Char
  | [] => []
  | c :: cs =>
      if c = '>' then '&' :: 'g' :: 't' :: ';' :: replaceGt cs
      else c :: replaceGt cs

/-- The escape stage of markdownToHtml in the publish Edge Function: the
three chained global replaces applied to the raw markdown before any
markdown rule (headers, emphasis, code, links, ...) runs. -/
def escapeHtml (l : List Char) : List Char :=
  replaceGt (replaceLt (replaceAmp l))

/-- Per-character view of the escape stage (the three patterns are single
characters and no replacement reintroduces a character a later replace
rewrites, so the chain acts independently on every input character). -/
def escChar (c : Char) : List Char :=
  if c = '&' then ['&', 'a', 'm', 'p', ';']
  else if c = '<' then ['&', 'l', 't', ';']
  else if c = '>' then ['&', 'g', 't', ';']
  else [c]

/-- Checks that every ampersand of a character list begins one of the three
entities inserted by the escape stage. -/
def entitiesOk : List Char → Bool
  | [] => true
  | c :: cs =>
      if c = '&' then
        decide (cs.take 4 = ['a', 'm', 'p', ';'] ∨ cs.take 3 = ['l', 't', ';'] ∨
          cs.take 3 = ['g', 't', ';']) && entitiesOk cs
      else entitiesOk cs

/-- Lowercase alphanumeric test matching the character class a-z0-9 of the
slug regex. -/
def isLowerAlnum (c : Char) : Bool :=
  ('a' ≤ c ∧ c ≤ 'z') ∨ ('0' ≤ c ∧ c ≤ '9')

/-- Character-by-character pass of the run-collapsing replace; the flag
records whether the scanner is inside a non-alphanumeric run whose dash was
already emitted. -/
def collapseGo : Bool → List Char → List Char
  | _, [] => []
  | inRun, c :: cs =>
      if isLowerAlnum c then c :: collapseGo false cs
      else if inRun then collapseGo true cs
      else '-' :: collapseGo true cs

/-- The global replace of every maximal run matching the class complement:
title.replace(non-alphanumeric-run-global, "-") after lowercasing.  Each
kept character passes through; each maximal non-alphanumeric run becomes a
single dash. -/
def collapseRuns (l : List Char) : List Char :=
  collapseGo false l

/-- replace(anchored-dash-alternation-global, ""): one leading dash is
removed. -/
def stripLead (l : List Char) : List Char :=
  match l with
  | [] => []
  | c :: cs => if c = '-' then cs else c :: cs

/-- The same replace removes one trailing dash. -/
def stripTrail (l : List Char) : List Char :=
  (stripLead l.reverse).reverse

/-- Both ends, as the alternation with the g flag does. -/
def stripEnds (l : List Char) : List Char :=
  stripTrail (stripLead l)

/-- The slug assignment of the publish Edge Function:
doc.title.toLowerCase().replace(non-alphanumeric-run, "-") with the anchored
dashes trimmed, falling back to document-index when the result is empty
(the empty string is falsy, so the JavaScript or-expression takes the
placeholder). -/
def slugify (title : String) (index : Nat) : String :=
  let core := stripEnds (collapseRuns (title.toList.map Char.toLower))
  if core.isEmpty then "document-" ++ toString index else String.mk core

/-- Specification-side slug: the maximal alphanumeric runs of the lowercased
title. -/
def specWords : List Char → List (List Char)
  | [] => []
  | c :: cs =>
      if isLowerAlnum c then
        (c :: cs.takeWhile isLowerAlnum) :: specWords (cs.dropWhile isLowerAlnum)
      else specWords (cs.dropWhile (fun d => ! isLowerAlnum d))
termination_by l => l.length
decreasing_by
  · have h := List.Sublist.length_le (@List.dropWhile_sublist Char cs isLowerAlnum)
    simp only [List.length_cons]
    omega
  · have h := List.Sublist.length_le (@List.dropWhile_sublist Char cs (fun d => ! isLowerAlnum d))
    simp only [List.length_cons]
    omega

/-- Joining words with a single dash separator. -/
def joinDash : List (List Char) → List Char
  | [] => []
  | [w] => w
  | w :: ws => w ++ '-' :: joinDash ws

/-- Specification-side slug of the claim: the title lowercased, every
maximal non-alphanumeric run collapsed to a single dash separator, ends
trimmed; document-index when nothing alphanumeric remains. -/
def slugifySpec (title : String) (index : Nat) : String :=
  let ws := specWords (title.toList.map Char.toLower)
  if ws.isEmpty then "document-" ++ toString index
  else String.mk (joinDash ws)

/-- Whether a character list starts with a non-alphanumeric character. -/
def headNonAl (l : List Char) : Bool :=
  match l with
  | [] => false
  | c :: _ => ! isLowerAlnum c

/-- Whether a character list ends with a non-alphanumeric character. -/
def lastNonAl (l : List Char) : Bool :=
  headNonAl l.reverse

/-- A single optional dash. -/
def dashIf (b : Bool) : List Char :=
  if b then ['-'] else []

/-- Member roles of the project_members table. -/
inductive Role where
  | owner
  | editor
  | viewer
  deriving DecidableEq

/-- A project_members row of one project (id is the row key the store
addresses members by; user_id the member's user). -/
structure Member where
  id : String
  user_id : String
  role : Role
  deriving DecidableEq

/-- has_project_access(project, uid, 'owner') of the schema: some membership
row of this project carries the acting user with role owner. -/
def isProjectOwner (ms : List Member) (uid : String) : Bool :=
  ms.any (fun m => decide (m.user_id = uid ∧ m.role = Role.owner))

/-- The union of the two permissive DELETE policies on project_members: an
owner may delete rows of other users ("Owners can remove members", which
excludes their own rows), and any user may delete their own non-owner rows
("Members can leave projects", which excludes owner rows). -/
def canDeleteMember (ms : List Member) (actor : String) (m : Member) : Bool :=
  (isProjectOwner ms actor ∧ m.user_id ≠ actor) ∨ (m.user_id = actor ∧ m.role ≠ Role.owner)

/-- updateMemberRole of projectStore.ts as filtered by the UPDATE policy
"Owners can update member roles": the single-row update by member id only
touches rows the policy admits, i.e. when the actor owns the project and
the existing row's role is not owner. -/
def updateMemberRole (ms : List Member) (actor memberId : String) (r : Role) :
    List Member :=
  ms.map (fun m =>
    if m.id = memberId ∧ isProjectOwner ms actor = true ∧ m.role ≠ Role.owner then
      { m with role := r }
    else m)

/-- removeMember of projectStore.ts under the DELETE policies: the delete by
member id removes exactly the rows both selected and admitted. -/
def removeMember (ms : List Member) (actor memberId : String) : List Member :=
  ms.filter (fun m => decide (¬ (m.id = memberId ∧ canDeleteMember ms actor m = true)))

/-- leaveProject of projectStore.ts under the DELETE policies: the delete by
the actor's own user id removes exactly the rows both selected and
admitted. -/
def leaveProject (ms : List Member) (actor : String) : List Member :=
  ms.filter (fun m => decide (¬ (m.user_id = actor ∧ canDeleteMember ms actor m = true)))

/-- addMember of projectStore.ts under the INSERT policy "Owners can add
members": the insert succeeds only for an owner of the project. -/
def addMember (ms : List Member) (actor : String) (m : Member) : List Member :=
  if isProjectOwner ms actor then ms ++ [m] else ms

/-- The membership mutations reachable through the store. -/
inductive MemberOp where
  | update (actor memberId : String) (r : Role)
  | remove (actor memberId : String)
  | leave (actor : String)
  | add (actor : String) (m : Member)

/-- One store mutation applied to the membership rows of a project. -/
def applyMemberOp (ms : List Member) : MemberOp → List Member
  | MemberOp.update actor memberId r => updateMemberRole ms actor memberId r
  | MemberOp.remove actor memberId => removeMember ms actor memberId
  | MemberOp.leave actor => leaveProject ms actor
  | MemberOp.add actor m => addMember ms actor m

/-- Whether the project still has an owner. -/
def hasOwner (ms : List Member) : Bool :=
  ms.any (fun m => decide (m.role = Role.owner))

/-- The request-and-environment a publish invocation sees: auth header and
token resolution, request body, the membership row's role, project and
document query results, and the outcome of the two awaited writes (bundle
upload, Publish record insert).  Rendering and zip assembly are pure in the
source and cannot fail. -/
structure PublishEnv where
  hasAuthHeader : Bool
  projectIdParam : Option String
  userId : Option String
  memberRole : Option Role
  projectExists : Bool
  docsQueryOk : Bool
  documents : List Document
  uploadOk : Bool
  insertOk : Bool
  newPublishId : String
  now : Nat

/-- The JSON body the publish Edge Function answers with, plus HTTP status. -/
structure PublishResponse where
  status : Nat
  success : Bool
  error : Option String
  version : Option String
  previewUrl : Option String
  documentCount : Option Nat
  publishId : Option String
  deriving DecidableEq

/-- An error response { error: msg } with the given status. -/
def publishErrorResponse (status : Nat) (msg : String) : PublishResponse :=
  { status := status, success := false, error := some msg, version := none,
    previewUrl := none, documentCount := none, publishId := none }

/-- The published selection of the pipeline: non-folder documents flagged
is_published (the query also filters by project and orders by sort_order;
ordering does not affect the properties proved here). -/
def publishedSelection (docs : List Document) : List Document :=
  docs.filter (fun d => d.is_published && ! d.is_folder)

/-- The publish Edge Function handler.  The returned Bool records whether a
Publish row was inserted.  Control flow follows the source: 401 without
auth header or user, 400 without projectId or published documents, 403
without an owner/editor membership row, 404 without the project, 500 when
the document query or the storage upload fails; after a successful upload
the Publish insert is attempted and its error is only logged - the 200
success response is produced regardless, with publishId present only when
the insert succeeded. -/
def publishHandler (env : PublishEnv) : PublishResponse × Bool :=
  if env.hasAuthHeader = false then
    (publishErrorResponse 401 "Missing authorization header", false)
  else
    match env.projectIdParam with
    | none => (publishErrorResponse 400 "Project ID is required", false)
    | some projectId =>
      match env.userId with
      | none => (publishErrorResponse 401 "Invalid user token", false)
      | some _ =>
        if ¬ (env.memberRole = some Role.owner ∨ env.memberRole = some Role.editor) then
          (publishErrorResponse 403 "Unauthorized: Editor or owner access required", false)
        else if env.projectExists = false then
          (publishErrorResponse 404 "Project not found", false)
        else if env.docsQueryOk = false then
          (publishErrorResponse 500 "Failed to fetch documents", false)
        else if publishedSelection env.documents = [] then
          (publishErrorResponse 400 "No published documents found", false)
        else
          let version := "v" ++ toString env.now
          let storagePath := projectId ++ "/" ++ version ++ "/site.zip"
          if env.uploadOk = false then
            (publishErrorResponse 500 "Failed to upload published site", false)
          else
            ({ status := 200, success := true, error := none,
               version := some version,
               previewUrl := some ("https://storage/" ++ storagePath),
               documentCount := some (publishedSelection env.documents).length,
               publishId := if env.insertOk then some env.newPublishId else none },
             env.insertOk)

/-- The parent_id of the (first) document of a list with the given id. -/
def parentIdOf (docs : List Document) (i : String) : Option (Option String) :=
  (docs.find? (fun d => decide (d.id = i))).map (fun d => d.parent_id)

/-- A fresh store state over the given rows, as fetchDocuments leaves it. -/
def sampleState (docs : List Document) : StoreState :=
  { documents := docs, documentTree := buildDocumentTree docs, currentDocument := none,
    loading := false, saving := false, error := none }

/-- Sample row: a root document of project P. -/
def dA : Document :=
  { id := "a", project_id := "P", parent_id := none, title := "A", content := "",
    is_folder := false, is_published := false, sort_order := 0 }

/-- Sample row: a child of dA. -/
def dB : Document :=
  { id := "b", project_id := "P", parent_id := some "a", title := "B", content := "",
    is_folder := false, is_published := false, sort_order := 1 }

/-- Sample row: a child of dB (grandchild of dA). -/
def dC : Document :=
  { id := "c", project_id := "P", parent_id := some "b", title := "C", content := "",
    is_folder := false, is_published := false, sort_order := 0 }

/-- Sample row: an unrelated root of project P. -/
def dD : Document :=
  { id := "d", project_id := "P", parent_id := none, title := "D", content := "",
    is_folder := false, is_published := false, sort_order := 2 }

/-- Sample row: an unpublished folder. -/
def dFolder : Document :=
  { id := "f", project_id := "P", parent_id := none, title := "F", content := "",
    is_folder := true, is_published := false, sort_order := 0 }

/-- Sample row: a root document of project P1. -/
def dX : Document :=
  { id := "x", project_id := "P1", parent_id := none, title := "X", content := "",
    is_folder := false, is_published := false, sort_order := 0 }

/-- Sample row: a document of project P2 whose parent_id names dX of
project P1. -/
def dY : Document :=
  { id := "y", project_id := "P2", parent_id := some "x", title := "Y", content := "",
    is_folder := false, is_published := false, sort_order := 0 }

/-- Sample row: a published non-folder document. -/
def dPub : Document :=
  { id := "p", project_id := "P", parent_id := none, title := "Intro", content := "hi",
    is_folder := false, is_published := true, sort_order := 0 }

/-- A publish environment in which every step succeeds. -/
def envGood : PublishEnv :=
  { hasAuthHeader := true, projectIdParam := some "P", userId := some "u",
    memberRole := some Role.editor, projectExists := true, docsQueryOk := true,
    documents := [dPub], uploadOk := true, insertOk := true, newPublishId := "pub1",
    now := 7 }

/-- A publish environment in which only the Publish record insert fails. -/
def envBadInsert : PublishEnv :=
  { hasAuthHeader := true, projectIdParam := some "P", userId := some "u",
    memberRole := some Role.editor, projectExists := true, docsQueryOk := true,
    documents := [dPub], uploadOk := true, insertOk := false, newPublishId := "pub1",
    now := 7 }

/-- C10: when togglePublished is called with a documentId that is not among
the store's rows, it returns false and leaves the state (documents, tree,
error) untouched. -/
theorem c10_togglePublished_missing_id_noop (s : StoreState) (documentId : String)
    (dbOk : Bool)
    (h : s.documents.find? (fun d => decide (d.id = documentId)) = none) :
    togglePublished s documentId dbOk = (false, s) := by
  unfold togglePublished
  rw [h]

/-- Witness for C10 at a concrete store state and an absent id. -/
theorem c10_witness :
    (sampleState [dA]).documents.find? (fun d => decide (d.id = "zzz")) = none ∧
    togglePublished (sampleState [dA]) "zzz" true = (false, sampleState [dA]) := by
  have h : (sampleState [dA]).documents.find? (fun d => decide (d.id = "zzz")) = none := by
    rfl
  exact ⟨h, c10_togglePublished_missing_id_noop (sampleState [dA]) "zzz" true h⟩

/-- C3 counterexample: togglePublished invoked on a folder is not a no-op:
with a folder row present it returns true and sets is_published on the
folder. -/
theorem c3_counterexample :
    dFolder.is_folder = true ∧ dFolder.is_published = false ∧
    (togglePublished (sampleState [dFolder]) "f" true).1 = true ∧
    (togglePublished (sampleState [dFolder]) "f" true).2.documents.find?
        (fun d => decide (d.id = "f")) =
      some { dFolder with is_published := true } := by
  refine ⟨rfl, rfl, rfl, ?_⟩
  rfl

/-- C3 amended: togglePublished flips is_published on any row whose id it
finds, with no is_folder guard; the result state's rows are exactly the old
rows with the matching ids flipped to the negation of the found row's
flag. -/
theorem c3_togglePublished_flips_any_row (s : StoreState) (documentId : String)
    (doc : Document)
    (h : s.documents.find? (fun d => decide (d.id = documentId)) = some doc) :
    (togglePublished s documentId true).1 = true ∧
    (togglePublished s documentId true).2.documents =
      s.documents.map (fun d =>
        if d.id = documentId then { d with is_published := !doc.is_published } else d) := by
  unfold togglePublished
  rw [h]
  exact ⟨rfl, rfl⟩

/-- Witness for C3's amended theorem: applying it to a folder row flips the
folder's is_published flag. -/
theorem c3_witness :
    (sampleState [dFolder]).documents.find? (fun d => decide (d.id = "f")) = some dFolder ∧
    (togglePublished (sampleState [dFolder]) "f" true).1 = true ∧
    (togglePublished (sampleState [dFolder]) "f" true).2.documents =
      [{ dFolder with is_published := true }] := by
  have h : (sampleState [dFolder]).documents.find? (fun d => decide (d.id = "f")) =
      some dFolder := by rfl
  have h2 := c3_togglePublished_flips_any_row (sampleState [dFolder]) "f" dFolder h
  exact ⟨h, h2.1, h2.2.trans (by rfl)⟩

/-- C1: moveDocument performs no cycle check at all: with the database
write succeeding it accepts every (id, newParentId) pair, and in particular
moving a document below its own child succeeds and leaves a two-cycle in
the parent relation (the claimed CycleDetected rejection does not exist in
the code). -/
theorem c1_moveDocument_accepts_cycles :
    (∀ (s : StoreState) (documentId : String) (newParentId : Option String)
        (newSortOrder : Int),
        (moveDocument s documentId newParentId newSortOrder true).1 = true) ∧
    (moveDocument (sampleState [dA, dB]) "a" (some "b") 0 true).1 = true ∧
    parentIdOf (moveDocument (sampleState [dA, dB]) "a" (some "b") 0 true).2.documents "a" =
      some (some "b") ∧
    parentIdOf (moveDocument (sampleState [dA, dB]) "a" (some "b") 0 true).2.documents "b" =
      some (some "a") := by
  refine ⟨fun s i p o => rfl, rfl, ?_, ?_⟩
  · rfl
  · rfl

/-- C6: the root-sibling query of createDocument comes back empty under
PostgREST (eq.null is never IS NULL), so every newly created root document
is assigned sort_order 0 no matter what root siblings exist — against the
claim's max-plus-one rule for the null parent.  Evaluated at the failing
input: project P already holds the root documents dA (order 0) and dD
(order 2), yet a new root gets 0, not 3. -/
theorem c6_root_sort_order_always_zero :
    (∀ (docs : List Document) (projectId : String),
        createSortOrder docs projectId none = 0) ∧
    dA.parent_id = none ∧ dA.project_id = "P" ∧ dA.sort_order = 0 ∧
    dD.parent_id = none ∧ dD.project_id = "P" ∧ dD.sort_order = 2 ∧
    createSortOrder [dA, dD] "P" none = 0 := by
  refine ⟨fun docs projectId => rfl, rfl, rfl, rfl, rfl, rfl, rfl, rfl⟩

/-- C2 counterexample: when every step up to and including the bundle
upload succeeds but creating the Publish record fails, the handler still
answers 200 with success true — the caller does not receive a
PublishFailed — and the success carries no Publish record identity while
no record exists. -/
theorem c2_counterexample :
    envBadInsert.insertOk = false ∧
    (publishHandler envBadInsert).1.success = true ∧
    (publishHandler envBadInsert).1.status = 200 ∧
    (publishHandler envBadInsert).1.publishId = none ∧
    (publishHandler envBadInsert).2 = false := by
  refine ⟨rfl, ?_, ?_, ?_, ?_⟩ <;> rfl

/-- C2 amended: a Publish record exists only alongside a success response
carrying its identity; success implies status 200 and the record exists
exactly when the insert succeeded; an upload failure always yields a
non-success response and no record; but an insert failure is swallowed —
the response is still a success with no record identity and no record. -/
theorem c2_publish_failure_handling (env : PublishEnv) :
    ((publishHandler env).2 = true →
      (publishHandler env).1.success = true ∧
      (publishHandler env).1.publishId = some env.newPublishId) ∧
    ((publishHandler env).1.success = true →
      (publishHandler env).1.status = 200 ∧
      ((publishHandler env).2 = true ↔ env.insertOk = true)) ∧
    (env.uploadOk = false →
      (publishHandler env).2 = false ∧ (publishHandler env).1.success = false) ∧
    ((publishHandler env).1.success = true → env.insertOk = false →
      (publishHandler env).1.publishId = none ∧ (publishHandler env).2 = false) := by
  unfold publishHandler
  split
  · simp [publishErrorResponse]
  · split
    · simp [publishErrorResponse]
    · split
      · simp [publishErrorResponse]
      · split
        · simp [publishErrorResponse]
        · split
          · simp [publishErrorResponse]
          · split
            · simp [publishErrorResponse]
            · split
              · simp [publishErrorResponse]
              · split
                · rename_i huploadFalse
                  simp only [publishErrorResponse]
                  refine ⟨?_, ?_, ?_, ?_⟩ <;> simp [huploadFalse]
                · rename_i huploadOk
                  cases hins : env.insertOk <;>
                    simp [huploadOk, hins, Bool.not_eq_false] at *

/-- Witness for C2's amended theorem: in an environment where every step
succeeds, the record is created and its identity is returned with the
success. -/
theorem c2_witness :
    (publishHandler envGood).2 = true ∧
    (publishHandler envGood).1.success = true ∧
    (publishHandler envGood).1.publishId = some "pub1" := by
  have h : (publishHandler envGood).2 = true := by rfl
  have h2 := (c2_publish_failure_handling envGood).1 h
  exact ⟨h, h2.1, h2.2.trans (by rfl)⟩

/-- The lt replace distributes over appending. -/
theorem replaceLt_append (a b : List Char) :
    replaceLt (a ++ b) = replaceLt a ++ replaceLt b := by
  induction a with
  | nil => rfl
  | cons c cs ih =>
    by_cases h : c = '<'
    · subst h
      have e1 : replaceLt ('<' :: (cs ++ b)) = '&' :: 'l' :: 't' :: ';' :: replaceLt (cs ++ b) := by
        simp [replaceLt]
      have e2 : replaceLt ('<' :: cs) = '&' :: 'l' :: 't' :: ';' :: replaceLt cs := by
        simp [replaceLt]
      rw [List.cons_append, e1, e2, ih]
      simp
    · have e1 : replaceLt (c :: (cs ++ b)) = c :: replaceLt (cs ++ b) := by
        simp [replaceLt, h]
      have e2 : replaceLt (c :: cs) = c :: replaceLt cs := by
        simp [replaceLt, h]
      rw [List.cons_append, e1, e2, ih]
      simp

/-- The gt replace distributes over appending. -/
theorem replaceGt_append (a b : List Char) :
    replaceGt (a ++ b) = replaceGt a ++ replaceGt b := by
  induction a with
  | nil => rfl
  | cons c cs ih =>
    by_cases h : c = '>'
    · subst h
      have e1 : replaceGt ('>' :: (cs ++ b)) = '&' :: 'g' :: 't' :: ';' :: replaceGt (cs ++ b) := by
        simp [replaceGt]
      have e2 : replaceGt ('>' :: cs) = '&' :: 'g' :: 't' :: ';' :: replaceGt cs := by
        simp [replaceGt]
      rw [List.cons_append, e1, e2, ih]
      simp
    · have e1 : replaceGt (c :: (cs ++ b)) = c :: replaceGt (cs ++ b) := by
        simp [replaceGt, h]
      have e2 : replaceGt (c :: cs) = c :: replaceGt cs := by
        simp [replaceGt, h]
      rw [List.cons_append, e1, e2, ih]
      simp

/-- The chained replaces of the escape stage act independently on every
input character. -/
theorem escapeHtml_eq_flatMap (l : List Char) : escapeHtml l = l.flatMap escChar := by
  induction l with
  | nil => rfl
  | cons c cs ih =>
    by_cases h1 : c = '&'
    · subst h1
      have ha : replaceAmp ('&' :: cs) = ['&', 'a', 'm', 'p', ';'] ++ replaceAmp cs := by
        simp [replaceAmp]
      unfold escapeHtml
      rw [ha, replaceLt_append, replaceGt_append]
      show ['&', 'a', 'm', 'p', ';'] ++ escapeHtml cs = _
      rw [ih, List.flatMap_cons]
      rfl
    · by_cases h2 : c = '<'
      · subst h2
        have ha : replaceAmp ('<' :: cs) = '<' :: replaceAmp cs := by
          simp [replaceAmp]
        have hl : replaceLt ('<' :: replaceAmp cs) =
            ['&', 'l', 't', ';'] ++ replaceLt (replaceAmp cs) := by
          simp [replaceLt]
        unfold escapeHtml
        rw [ha, hl, replaceGt_append]
        show ['&', 'l', 't', ';'] ++ escapeHtml cs = _
        rw [ih, List.flatMap_cons]
        rfl
      · by_cases h3 : c = '>'
        · subst h3
          have ha : replaceAmp ('>' :: cs) = '>' :: replaceAmp cs := by
            simp [replaceAmp]
          have hl : replaceLt ('>' :: replaceAmp cs) = '>' :: replaceLt (replaceAmp cs) := by
            simp [replaceLt]
          have hg : replaceGt ('>' :: replaceLt (replaceAmp cs)) =
              ['&', 'g', 't', ';'] ++ replaceGt (replaceLt (replaceAmp cs)) := by
            simp [replaceGt]
          unfold escapeHtml
          rw [ha, hl, hg]
          show ['&', 'g', 't', ';'] ++ escapeHtml cs = _
          rw [ih, List.flatMap_cons]
          rfl
        · have ha : replaceAmp (c :: cs) = c :: replaceAmp cs := by
            simp [replaceAmp, h1]
          have hl : replaceLt (c :: replaceAmp cs) = c :: replaceLt (replaceAmp cs) := by
            simp [replaceLt, h2]
          have hg : replaceGt (c :: replaceLt (replaceAmp cs)) =
              c :: replaceGt (replaceLt (replaceAmp cs)) := by
            simp [replaceGt, h3]
          unfold escapeHtml
          rw [ha, hl, hg]
          show c :: escapeHtml cs = _
          rw [ih, List.flatMap_cons]
          simp [escChar, h1, h2, h3]

/-- C8: the escape stage of markdownToHtml — applied to the whole source
text before any markdown rule — leaves no raw angle bracket at all, and
every ampersand of its output starts one of the three inserted entities;
so the text every subsequent markdown transformation operates on carries no
unescaped HTML-significant character of the input. -/
theorem c8_markdownToHtml_escapes_first (l : List Char) :
    (∀ c ∈ escapeHtml l, c ≠ '<' ∧ c ≠ '>') ∧ entitiesOk (escapeHtml l) = true := by
  rw [escapeHtml_eq_flatMap]
  constructor
  · intro c hc
    rcases List.mem_flatMap.mp hc with ⟨a, _, ha⟩
    by_cases h1 : a = '&'
    · subst h1
      simp only [escChar, if_pos] at ha
      simp at ha
      rcases ha with rfl | rfl | rfl | rfl | rfl <;> exact ⟨by decide, by decide⟩
    · by_cases h2 : a = '<'
      · subst h2
        simp [escChar] at ha
        rcases ha with rfl | rfl | rfl | rfl <;> exact ⟨by decide, by decide⟩
      · by_cases h3 : a = '>'
        · subst h3
          simp [escChar] at ha
          rcases ha with rfl | rfl | rfl | rfl <;> exact ⟨by decide, by decide⟩
        · simp [escChar, h1, h2, h3] at ha
          subst ha
          exact ⟨h2, h3⟩
  · induction l with
    | nil => rfl
    | cons a as ih =>
      rw [List.flatMap_cons]
      by_cases h1 : a = '&'
      · subst h1
        show entitiesOk ('&' :: 'a' :: 'm' :: 'p' :: ';' :: as.flatMap escChar) = true
        simp [entitiesOk, ih]
      · by_cases h2 : a = '<'
        · subst h2
          show entitiesOk ('&' :: 'l' :: 't' :: ';' :: as.flatMap escChar) = true
          simp [entitiesOk, ih]
        · by_cases h3 : a = '>'
          · subst h3
            show entitiesOk ('&' :: 'g' :: 't' :: ';' :: as.flatMap escChar) = true
            simp [entitiesOk, ih]
          · show entitiesOk (escChar a ++ as.flatMap escChar) = true
            simp [escChar, h1, h2, h3, entitiesOk, ih]

/-- Scanning inside a run is the same as skipping the rest of the run. -/
theorem collapseGo_true_eq (l : List Char) :
    collapseGo true l = collapseGo false (l.dropWhile (fun d => ! isLowerAlnum d)) := by
  induction l with
  | nil => rfl
  | cons c cs ih =>
    by_cases h : isLowerAlnum c
    · simp [collapseGo, h, List.dropWhile_cons]
    · simp only [collapseGo, h, List.dropWhile_cons]
      simp [h, ih]

/-- Unfolding collapseRuns at an alphanumeric head. -/
theorem collapseRuns_cons_alnum (c : Char) (cs : List Char) (h : isLowerAlnum c = true) :
    collapseRuns (c :: cs) = c :: collapseRuns cs := by
  simp [collapseRuns, collapseGo, h]

/-- Unfolding collapseRuns at a non-alphanumeric head: the whole run
becomes one dash. -/
theorem collapseRuns_cons_other (c : Char) (cs : List Char) (h : isLowerAlnum c = false) :
    collapseRuns (c :: cs) =
      '-' :: collapseRuns (cs.dropWhile (fun d => ! isLowerAlnum d)) := by
  simp [collapseRuns, collapseGo, h, collapseGo_true_eq]

/-- Unfolding specWords at an alphanumeric head. -/
theorem specWords_cons_alnum (c : Char) (cs : List Char) (h : isLowerAlnum c = true) :
    specWords (c :: cs) =
      (c :: cs.takeWhile isLowerAlnum) :: specWords (cs.dropWhile isLowerAlnum) := by
  rw [specWords]
  simp [h]

/-- Unfolding specWords at a non-alphanumeric head. -/
theorem specWords_cons_other (c : Char) (cs : List Char) (h : isLowerAlnum c = false) :
    specWords (c :: cs) = specWords (cs.dropWhile (fun d => ! isLowerAlnum d)) := by
  rw [specWords]
  simp [h]

/-- collapseRuns copies a maximal alphanumeric run verbatim. -/
theorem collapseRuns_takeWhile (l : List Char) :
    collapseRuns l = l.takeWhile isLowerAlnum ++ collapseRuns (l.dropWhile isLowerAlnum) := by
  induction l with
  | nil => rfl
  | cons c cs ih =>
    by_cases h : isLowerAlnum c
    · rw [collapseRuns_cons_alnum c cs h]
      simp only [List.takeWhile_cons, List.dropWhile_cons, h, if_pos]
      simp [ih]
    · simp [List.takeWhile_cons, List.dropWhile_cons, h]

/-- The head of a dropWhile result fails the predicate. -/
theorem dropWhile_cons_head (p : Char → Bool) (l : List Char) (a : Char) (as : List Char)
    (h : l.dropWhile p = a :: as) : p a = false := by
  induction l with
  | nil => exact absurd h (by simp)
  | cons c cs ih =>
    by_cases hc : p c
    · rw [List.dropWhile_cons, if_pos hc] at h
      exact ih h
    · rw [List.dropWhile_cons, if_neg hc] at h
      cases h
      exact Bool.eq_false_iff.mpr hc

/-- When specWords finds no word, every character is non-alphanumeric. -/
theorem specWords_eq_nil_forall (m : List Char) (h : specWords m = []) :
    ∀ x ∈ m, isLowerAlnum x = false :=
  match m with
  | [] => by intro x hx; simp at hx
  | c :: cs => by
    by_cases hc : isLowerAlnum c
    · rw [specWords_cons_alnum c cs hc] at h
      exact absurd h (by simp)
    · have hc' : isLowerAlnum c = false := Bool.eq_false_iff.mpr hc
      intro x hx
      rcases List.mem_cons.mp hx with rfl | hx2
      · exact hc'
      · have hsplit := List.takeWhile_append_dropWhile (fun d => ! isLowerAlnum d) cs
        rw [← hsplit] at hx2
        rcases List.mem_append.mp hx2 with hx3 | hx3
        · have := List.mem_takeWhile_imp hx3
          simpa using this
        · have h2 : specWords (cs.dropWhile (fun d => ! isLowerAlnum d)) = [] := by
            rw [specWords_cons_other c cs hc'] at h
            exact h
          exact specWords_eq_nil_forall _ h2 x hx3
termination_by m.length
decreasing_by
  have hlen := List.Sublist.length_le (@List.dropWhile_sublist Char cs (fun d => ! isLowerAlnum d))
  simp only [List.length_cons]
  omega

/-- Every word produced by specWords is nonempty and all-alphanumeric. -/
theorem specWords_good (m : List Char) :
    ∀ w ∈ specWords m, w ≠ [] ∧ ∀ x ∈ w, isLowerAlnum x = true :=
  match m with
  | [] => by intro w hw; simp [specWords] at hw
  | c :: cs => by
    by_cases hc : isLowerAlnum c
    · rw [specWords_cons_alnum c cs hc]
      intro w hw
      rcases List.mem_cons.mp hw with rfl | hw2
      · refine ⟨by simp, ?_⟩
        intro x hx
        rcases List.mem_cons.mp hx with rfl | hx2
        · exact hc
        · exact List.mem_takeWhile_imp hx2
      · exact specWords_good _ w hw2
    · have hc' : isLowerAlnum c = false := Bool.eq_false_iff.mpr hc
      rw [specWords_cons_other c cs hc']
      intro w hw
      exact specWords_good _ w hw
termination_by m.length
decreasing_by
  · have hlen := List.Sublist.length_le (@List.dropWhile_sublist Char cs isLowerAlnum)
    simp only [List.length_cons]
    omega
  · have hlen := List.Sublist.length_le (@List.dropWhile_sublist Char cs (fun d => ! isLowerAlnum d))
    simp only [List.length_cons]
    omega

/-- headNonAl only looks at the first list when it is nonempty. -/
theorem headNonAl_append (x y : List Char) (hx : x ≠ []) :
    headNonAl (x ++ y) = headNonAl x := by
  cases x with
  | nil => exact absurd rfl hx
  | cons c cs => rfl

/-- lastNonAl only looks at the second list when it is nonempty. -/
theorem lastNonAl_append (x y : List Char) (hy : y ≠ []) :
    lastNonAl (x ++ y) = lastNonAl y := by
  unfold lastNonAl
  rw [List.reverse_append]
  exact headNonAl_append _ _ (by simpa using hy)

/-- An all-alphanumeric list does not end in a non-alphanumeric character. -/
theorem lastNonAl_of_all_alnum (l : List Char) (h : ∀ x ∈ l, isLowerAlnum x = true) :
    lastNonAl l = false := by
  unfold lastNonAl headNonAl
  cases hr : l.reverse with
  | nil => rfl
  | cons c cs =>
    have hc : c ∈ l := List.mem_reverse.mp (hr ▸ List.mem_cons_self c cs)
    simp [h c hc]

/-- A nonempty all-non-alphanumeric list ends in a non-alphanumeric
character. -/
theorem lastNonAl_of_all_other (l : List Char) (hne : l ≠ [])
    (h : ∀ x ∈ l, isLowerAlnum x = false) : lastNonAl l = true := by
  unfold lastNonAl headNonAl
  cases hr : l.reverse with
  | nil => exact absurd (by simpa using congrArg List.reverse hr) hne
  | cons c cs =>
    have hc : c ∈ l := List.mem_reverse.mp (hr ▸ List.mem_cons_self c cs)
    simp [h c hc]

/-- Unfolding joinDash on a list of at least two words. -/
theorem joinDash_cons_of_ne (w : List Char) (ws : List (List Char)) (h : ws ≠ []) :
    joinDash (w :: ws) = w ++ '-' :: joinDash ws := by
  cases ws with
  | nil => exact absurd rfl h
  | cons v vs => rfl

/-- The decomposition of the collapsing replace: an optional leading dash
for a leading non-alphanumeric run, the words joined by single dashes, and
an optional trailing dash for a trailing non-alphanumeric run. -/
theorem collapseRuns_decomp (l : List Char) :
    collapseRuns l =
      if specWords l = [] then (if l = [] then ([] : List Char) else ['-'])
      else dashIf (headNonAl l) ++ joinDash (specWords l) ++ dashIf (lastNonAl l) :=
  match l with
  | [] => by simp [collapseRuns, collapseGo, specWords]
  | c :: cs => by
    by_cases hc : isLowerAlnum c
    · -- alphanumeric head: the first word is copied verbatim
      have hcol : collapseRuns (c :: cs) =
          (c :: cs.takeWhile isLowerAlnum) ++ collapseRuns (cs.dropWhile isLowerAlnum) := by
        rw [collapseRuns_cons_alnum c cs hc, collapseRuns_takeWhile cs]
        simp
      have hsw := specWords_cons_alnum c cs hc
      have hhead : headNonAl (c :: cs) = false := by simp [headNonAl, hc]
      have hdec : c :: cs = (c :: cs.takeWhile isLowerAlnum) ++ cs.dropWhile isLowerAlnum := by
        simp [List.takeWhile_append_dropWhile]
      cases hr : cs.dropWhile isLowerAlnum with
      | nil =>
        have hall : ∀ x ∈ c :: cs, isLowerAlnum x = true := by
          intro x hx
          rcases List.mem_cons.mp hx with rfl | hx2
          · exact hc
          · have : x ∈ cs.takeWhile isLowerAlnum ++ cs.dropWhile isLowerAlnum := by
              rw [List.takeWhile_append_dropWhile]
              exact hx2
            rcases List.mem_append.mp this with hx3 | hx3
            · exact List.mem_takeWhile_imp hx3
            · rw [hr] at hx3
              simp at hx3
        rw [hcol, hr, hsw, hr]
        simp [collapseRuns, collapseGo, specWords, hhead, dashIf, joinDash,
          lastNonAl_of_all_alnum _ hall]
      | cons r rs =>
        have hrf : isLowerAlnum r = false := dropWhile_cons_head isLowerAlnum cs r rs hr
        have hrec := collapseRuns_decomp (cs.dropWhile isLowerAlnum)
        rw [hr] at hrec
        have hlast : lastNonAl (c :: cs) = lastNonAl (r :: rs) := by
          rw [hdec, hr]
          exact lastNonAl_append _ _ (by simp)
        by_cases hsw2 : specWords (r :: rs) = []
        · have hall := specWords_eq_nil_forall (r :: rs) hsw2
          have hcr : collapseRuns (r :: rs) = ['-'] := by
            rw [hrec]
            simp [hsw2]
          rw [hcol, hr, hcr, hsw, hr, hsw2]
          simp [hhead, dashIf, hlast, joinDash,
            lastNonAl_of_all_other (r :: rs) (by simp) hall]
        · have hhr : headNonAl (r :: rs) = true := by simp [headNonAl, hrf]
          have hcr : collapseRuns (r :: rs) =
              '-' :: (joinDash (specWords (r :: rs)) ++ dashIf (lastNonAl (r :: rs))) := by
            rw [hrec]
            simp [hsw2, hhr, dashIf]
          rw [hcol, hr, hcr, hsw, hr]
          have hne : specWords (r :: rs) ≠ [] := hsw2
          simp [hhead, dashIf, hlast, joinDash_cons_of_ne _ _ hne]
    · -- non-alphanumeric head: the leading run becomes a leading dash
      have hc' : isLowerAlnum c = false := Bool.eq_false_iff.mpr hc
      have hcol := collapseRuns_cons_other c cs hc'
      have hsw := specWords_cons_other c cs hc'
      have hhead : headNonAl (c :: cs) = true := by simp [headNonAl, hc']
      have hdec : c :: cs =
          (c :: cs.takeWhile (fun d => ! isLowerAlnum d)) ++
            cs.dropWhile (fun d => ! isLowerAlnum d) := by
        simp [List.takeWhile_append_dropWhile]
      cases hr : cs.dropWhile (fun d => ! isLowerAlnum d) with
      | nil =>
        rw [hcol, hr, hsw, hr]
        simp [collapseRuns, collapseGo, specWords]
      | cons r rs =>
        have hrt : isLowerAlnum r = true := by
          have := dropWhile_cons_head (fun d => ! isLowerAlnum d) cs r rs hr
          simpa using this
        have hrec := collapseRuns_decomp (cs.dropWhile (fun d => ! isLowerAlnum d))
        rw [hr] at hrec
        have hsw2 : specWords (r :: rs) ≠ [] := by
          rw [specWords_cons_alnum r rs hrt]
          simp
        have hhr : headNonAl (r :: rs) = false := by simp [headNonAl, hrt]
        have hlast : lastNonAl (c :: cs) = lastNonAl (r :: rs) := by
          rw [hdec, hr]
          exact lastNonAl_append _ _ (by simp)
        have hcr : collapseRuns (r :: rs) =
            joinDash (specWords (r :: rs)) ++ dashIf (lastNonAl (r :: rs)) := by
          rw [hrec]
          simp [hsw2, hhr, dashIf]
        rw [hcol, hr, hcr, hsw, hr]
        simp [hhead, dashIf, hlast, hsw2]
termination_by l.length
decreasing_by
  · have hlen := List.Sublist.length_le (@List.dropWhile_sublist Char cs isLowerAlnum)
    simp only [List.length_cons]
    omega
  · have hlen := List.Sublist.length_le (@List.dropWhile_sublist Char cs (fun d => ! isLowerAlnum d))
    simp only [List.length_cons]
    omega

/-- An alphanumeric character is not the dash separator. -/
theorem alnum_ne_dash (c : Char) (h : isLowerAlnum c = true) : c ≠ '-' := by
  intro hc
  subst hc
  exact absurd h (by decide)

/-- stripLead only changes lists that start with a dash. -/
theorem stripLead_eq_self (l : List Char) (h : l.head? ≠ some '-') : stripLead l = l := by
  cases l with
  | nil => rfl
  | cons c cs =>
    have hc : c ≠ '-' := by
      intro hc
      exact h (by simp [hc])
    simp [stripLead, hc]

/-- stripTrail removes exactly one trailing dash. -/
theorem stripTrail_append_dash (x : List Char) : stripTrail (x ++ ['-']) = x := by
  unfold stripTrail
  rw [List.reverse_append]
  simp [stripLead]

/-- stripTrail only changes lists that end with a dash. -/
theorem stripTrail_eq_self (l : List Char) (h : l.getLast? ≠ some '-') : stripTrail l = l := by
  unfold stripTrail
  rw [stripLead_eq_self]
  · exact List.reverse_reverse l
  · rw [List.head?_reverse]
    exact h

/-- Joining nonempty words starts with the first word's head. -/
theorem joinDash_head_alnum (ws : List (List Char)) (hne : ws ≠ [])
    (hgood : ∀ w ∈ ws, w ≠ [] ∧ ∀ x ∈ w, isLowerAlnum x = true) :
    ∃ c cs, joinDash ws = c :: cs ∧ isLowerAlnum c = true := by
  cases ws with
  | nil => exact absurd rfl hne
  | cons w vs =>
    obtain ⟨hwne, hwal⟩ := hgood w (by simp)
    obtain ⟨a, w2, rfl⟩ := List.exists_cons_of_ne_nil hwne
    have ha : isLowerAlnum a = true := hwal a (by simp)
    cases vs with
    | nil => exact ⟨a, w2, rfl, ha⟩
    | cons v vs2 =>
      refine ⟨a, w2 ++ '-' :: joinDash (v :: vs2), ?_, ha⟩
      rw [joinDash_cons_of_ne _ _ (by simp)]
      simp

/-- Joining nonempty all-alphanumeric words ends with an alphanumeric
character. -/
theorem joinDash_getLast_alnum (ws : List (List Char)) (hne : ws ≠ [])
    (hgood : ∀ w ∈ ws, w ≠ [] ∧ ∀ x ∈ w, isLowerAlnum x = true) :
    ∃ c, (joinDash ws).getLast? = some c ∧ isLowerAlnum c = true := by
  induction ws with
  | nil => exact absurd rfl hne
  | cons w vs ih =>
    cases vs with
    | nil =>
      obtain ⟨hwne, hwal⟩ := hgood w (by simp)
      cases hwr : w.reverse with
      | nil => exact absurd (by simpa using congrArg List.reverse hwr) hwne
      | cons a ar =>
        have hga : w.getLast? = some a := by
          rw [← List.head?_reverse, hwr]
          rfl
        have ha : a ∈ w := List.mem_reverse.mp (hwr ▸ List.mem_cons_self a ar)
        exact ⟨a, hga, hwal a ha⟩
    | cons v vs2 =>
      obtain ⟨c, hc1, hc2⟩ := ih (by simp) (fun u hu => hgood u (by simp [hu]))
      refine ⟨c, ?_, hc2⟩
      rw [joinDash_cons_of_ne _ _ (by simp)]
      rw [show ('-' :: joinDash (v :: vs2)) = ['-'] ++ joinDash (v :: vs2) from rfl]
      rw [List.getLast?_append, List.getLast?_append, hc1]
      rfl

/-- C7: the slug the publish pipeline assigns equals the specification's
slug for every title and index — title lowercased, every maximal
non-alphanumeric run collapsed to a single dash, leading/trailing dash
trimmed, with the document-index placeholder when nothing remains — and in
particular the titles Intro, Getting Started!!, FAQ yield the slugs intro,
getting-started and faq. -/
theorem c7_slug_assignment :
    (∀ (title : String) (index : Nat), slugify title index = slugifySpec title index) ∧
    slugify "Intro" 0 = "intro" ∧
    slugify "Getting Started!!" 1 = "getting-started" ∧
    slugify "FAQ" 2 = "faq" := by
  refine ⟨?_, ?_, ?_, ?_⟩
  · intro title index
    unfold slugify slugifySpec
    by_cases hsw : specWords (title.toList.map Char.toLower) = []
    · have hcore : stripEnds (collapseRuns (title.toList.map Char.toLower)) = [] := by
        rw [collapseRuns_decomp, if_pos hsw]
        by_cases hm : title.toList.map Char.toLower = []
        · rw [if_pos hm]
          rfl
        · rw [if_neg hm]
          rfl
      rw [hcore, hsw]
      rfl
    · rw [collapseRuns_decomp, if_neg hsw]
      have hgood : ∀ w ∈ specWords (title.toList.map Char.toLower),
          w ≠ [] ∧ ∀ x ∈ w, isLowerAlnum x = true :=
        specWords_good (title.toList.map Char.toLower)
      obtain ⟨c0, cs0, hjd, hc0⟩ :=
        joinDash_head_alnum (specWords (title.toList.map Char.toLower)) hsw hgood
      obtain ⟨cl, hlast1, hcl⟩ :=
        joinDash_getLast_alnum (specWords (title.toList.map Char.toLower)) hsw hgood
      have hstep1 :
          stripLead (dashIf (headNonAl (title.toList.map Char.toLower)) ++
              joinDash (specWords (title.toList.map Char.toLower)) ++
              dashIf (lastNonAl (title.toList.map Char.toLower))) =
            joinDash (specWords (title.toList.map Char.toLower)) ++
              dashIf (lastNonAl (title.toList.map Char.toLower)) := by
        cases hh : headNonAl (title.toList.map Char.toLower) with
        | true =>
          simp only [dashIf, if_pos]
          rw [List.append_assoc]
          simp [stripLead]
        | false =>
          simp only [dashIf, if_neg, Bool.false_eq_true, if_false, List.nil_append]
          apply stripLead_eq_self
          rw [hjd]
          simp
          exact fun hcon => alnum_ne_dash c0 hc0 hcon
      have hstep2 :
          stripTrail (joinDash (specWords (title.toList.map Char.toLower)) ++
              dashIf (lastNonAl (title.toList.map Char.toLower))) =
            joinDash (specWords (title.toList.map Char.toLower)) := by
        cases hl : lastNonAl (title.toList.map Char.toLower) with
        | true =>
          simp only [dashIf, if_pos]
          exact stripTrail_append_dash _
        | false =>
          simp only [dashIf, Bool.false_eq_true, if_false, List.append_nil]
          apply stripTrail_eq_self
          rw [hlast1]
          intro hcon
          have : cl = '-' := by simpa using hcon
          exact alnum_ne_dash cl hcl this
      unfold stripEnds
      rw [hstep1, hstep2]
      have hne2 : joinDash (specWords (title.toList.map Char.toLower)) ≠ [] := by
        rw [hjd]
        simp
      simp only [List.isEmpty_iff]
      rw [if_neg hne2, if_neg hsw]
  · rfl
  · rfl
  · rfl

/-- hasOwner as an existential over the rows. -/
theorem hasOwner_exists (ms : List Member) :
    hasOwner ms = true ↔ ∃ m ∈ ms, m.role = Role.owner := by
  simp [hasOwner]

/-- isProjectOwner as an existential over the rows. -/
theorem isProjectOwner_exists (ms : List Member) (uid : String) :
    isProjectOwner ms uid = true ↔
      ∃ m ∈ ms, m.user_id = uid ∧ m.role = Role.owner := by
  simp [isProjectOwner]

/-- The role-update path maps every owner row to itself: the UPDATE policy
excludes rows whose existing role is owner. -/
theorem updateMemberRole_keeps_owner_rows (ms : List Member) (actor memberId : String)
    (r : Role) :
    ∀ m ∈ ms, m.role = Role.owner → m ∈ updateMemberRole ms actor memberId r := by
  intro m hm hrole
  unfold updateMemberRole
  have hfix :
      (if m.id = memberId ∧ isProjectOwner ms actor = true ∧ m.role ≠ Role.owner then
        { m with role := r } else m) = m := by
    rw [if_neg]
    intro hcon
    exact hcon.2.2 hrole
  exact hfix ▸ List.mem_map_of_mem _ hm

/-- Any row-id selection deleted under the two DELETE policies keeps at
least one owner: a deleted owner row can only be deleted by an acting
owner, whose own owner row no policy admits for deletion. -/
theorem filter_delete_keeps_owner (ms : List Member) (actor : String)
    (p : Member → Prop) [DecidablePred p] (h : hasOwner ms = true) :
    hasOwner (ms.filter
      (fun m => decide (¬ (p m ∧ canDeleteMember ms actor m = true)))) = true := by
  rw [hasOwner_exists] at h
  obtain ⟨w, hw, hwrole⟩ := h
  by_cases hdel : p w ∧ canDeleteMember ms actor w = true
  · obtain ⟨hq, hcd⟩ := hdel
    have hcd2 : (isProjectOwner ms actor = true ∧ w.user_id ≠ actor) ∨
        (w.user_id = actor ∧ w.role ≠ Role.owner) := by
      simpa [canDeleteMember] using hcd
    rcases hcd2 with ⟨hown, _⟩ | ⟨_, hne⟩
    · obtain ⟨a, ha, hau, har⟩ := (isProjectOwner_exists ms actor).mp hown
      rw [hasOwner_exists]
      refine ⟨a, List.mem_filter.mpr ⟨ha, ?_⟩, har⟩
      have hcda : canDeleteMember ms actor a = false := by
        simp [canDeleteMember, hau, har]
      simp [hcda]
    · exact absurd hwrole hne
  · rw [hasOwner_exists]
    refine ⟨w, List.mem_filter.mpr ⟨hw, ?_⟩, hwrole⟩
    exact decide_eq_true hdel

/-- Every single membership mutation keeps at least one owner. -/
theorem applyMemberOp_keeps_owner (ms : List Member) (op : MemberOp)
    (h : hasOwner ms = true) : hasOwner (applyMemberOp ms op) = true := by
  cases op with
  | update actor memberId r =>
    obtain ⟨w, hw, hr⟩ := (hasOwner_exists ms).mp h
    exact (hasOwner_exists _).mpr
      ⟨w, updateMemberRole_keeps_owner_rows ms actor memberId r w hw hr, hr⟩
  | remove actor memberId =>
    exact filter_delete_keeps_owner ms actor (fun m => m.id = memberId) h
  | leave actor =>
    exact filter_delete_keeps_owner ms actor (fun m => m.user_id = actor) h
  | add actor m2 =>
    obtain ⟨w, hw, hr⟩ := (hasOwner_exists ms).mp h
    simp only [applyMemberOp, addMember]
    by_cases hown : isProjectOwner ms actor
    · rw [if_pos hown, hasOwner_exists]
      exact ⟨w, by simp [hw], hr⟩
    · rw [if_neg hown]
      exact h

/-- C9: the role-update path never changes an owner row, an owner's own
rows survive leaving the project, and consequently every sequence of
membership operations keeps at least one owner in the project. -/
theorem c9_owner_invariant (ms : List Member) (ops : List MemberOp)
    (actor memberId : String) (r : Role) :
    (∀ m ∈ ms, m.role = Role.owner → m ∈ updateMemberRole ms actor memberId r) ∧
    (∀ m ∈ ms, m.user_id = actor → m.role = Role.owner → m ∈ leaveProject ms actor) ∧
    (hasOwner ms = true → hasOwner (ops.foldl applyMemberOp ms) = true) := by
  refine ⟨updateMemberRole_keeps_owner_rows ms actor memberId r, ?_, ?_⟩
  · intro m hm huser hrole
    unfold leaveProject
    refine List.mem_filter.mpr ⟨hm, ?_⟩
    have hcdm : canDeleteMember ms actor m = false := by
      simp [canDeleteMember, huser, hrole]
    simp [hcdm]
  · intro h
    induction ops generalizing ms with
    | nil => exact h
    | cons op rest ih => exact ih (applyMemberOp ms op) (applyMemberOp_keeps_owner ms op h)

/-- Witness for C9 on a concrete project: an owner row and an editor row,
followed by a demotion attempt against the owner row, the owner trying to
leave, and the editor removing rows — the owner row is untouched and an
owner remains. -/
theorem c9_witness :
    (let o1 : Member := { id := "m1", user_id := "alice", role := Role.owner }
     let e1 : Member := { id := "m2", user_id := "bob", role := Role.editor }
     o1 ∈ updateMemberRole [o1, e1] "alice" "m1" Role.viewer ∧
     o1 ∈ leaveProject [o1, e1] "alice" ∧
     hasOwner ([MemberOp.update "alice" "m1" Role.viewer, MemberOp.leave "alice",
        MemberOp.remove "bob" "m1"].foldl applyMemberOp [o1, e1]) = true) := by
  have h := c9_owner_invariant
    [⟨"m1", "alice", Role.owner⟩, ⟨"m2", "bob", Role.editor⟩]
    [MemberOp.update "alice" "m1" Role.viewer, MemberOp.leave "alice",
      MemberOp.remove "bob" "m1"]
    "alice" "m1" Role.viewer
  refine ⟨?_, ?_, ?_⟩
  · exact h.1 ⟨"m1", "alice", Role.owner⟩ (by simp) (by rfl)
  · exact h.2.1 ⟨"m1", "alice", Role.owner⟩ (by simp) (by rfl) (by rfl)
  · exact h.2.2 (by rfl)

/-- Distinct ids identify rows. -/
theorem id_inj (docs : List Document) (hnd : (docs.map (fun d => d.id)).Nodup)
    {a b : Document} (ha : a ∈ docs) (hb : b ∈ docs) (hid : a.id = b.id) : a = b :=
  List.inj_on_of_nodup_map hnd ha hb hid

/-- Every document below a root belongs to the document set. -/
theorem descOrSelf_mem {docs : List Document} {par : Document → Option String}
    {r : String} {e : Document} (h : DescOrSelf docs par r e) : e ∈ docs := by
  induction h with
  | base e he _ => exact he
  | step p c _ hc _ _ => exact hc

/-- Chaining the below-relation through an intermediate document. -/
theorem descOrSelf_compose {docs : List Document} {par : Document → Option String}
    (hnd : (docs.map (fun d => d.id)).Nodup) {r : String} {m e : Document}
    (h1 : DescOrSelf docs par r m) (h2 : DescOrSelf docs par m.id e) :
    DescOrSelf docs par r e := by
  induction h2 with
  | base e2 he2 hid2 =>
    have : e2 = m := id_inj docs hnd he2 (descOrSelf_mem h1) hid2
    exact this ▸ h1
  | step p c hp hc hpc ih => exact DescOrSelf.step p c ih hc hpc

/-- Ranks never decrease going down the tree. -/
theorem descOrSelf_rank {docs : List Document} {par : Document → Option String}
    {rk : String → Nat}
    (hrkpar : ∀ c ∈ docs, ∀ p ∈ docs, par c = some p.id → rk p.id < rk c.id)
    {r : String} {e : Document} (h : DescOrSelf docs par r e) : rk r ≤ rk e.id := by
  induction h with
  | base e _ hid => exact hid ▸ le_refl _
  | step p c hp hc hpc ih =>
    exact le_trans ih (le_of_lt (hrkpar c hc p (descOrSelf_mem hp) hpc))

/-- Two ancestors-or-selves of the same document are comparable. -/
theorem descOrSelf_total {docs : List Document} {par : Document → Option String}
    (hnd : (docs.map (fun d => d.id)).Nodup) {a b : String} {e : Document}
    (h1 : DescOrSelf docs par a e) :
    DescOrSelf docs par b e →
      (∀ bd ∈ docs, bd.id = b → DescOrSelf docs par a bd) ∨
      (∀ ad ∈ docs, ad.id = a → DescOrSelf docs par b ad) := by
  induction h1 with
  | base e1 he1 hid1 =>
    intro h2
    right
    intro ad had hadid
    have : ad = e1 := id_inj docs hnd had he1 (hadid.trans hid1.symm)
    exact this ▸ h2
  | step p c hp hc hpc ih =>
    intro h2
    cases h2 with
    | base c2 hc2 hid2 =>
      left
      intro bd hbd hbdid
      have : bd = c := id_inj docs hnd hbd hc2 (hbdid.trans hid2.symm)
      exact this ▸ DescOrSelf.step p c hp hc hpc
    | step p2 c2 hp2 hc2 hpc2 =>
      have hpid : p2.id = p.id := by
        have := hpc.symm.trans hpc2
        exact (Option.some.inj this).symm
      have hpeq : p2 = p := id_inj docs hnd (descOrSelf_mem hp2) (descOrSelf_mem hp) hpid
      exact ih (hpeq ▸ hp2)

/-- A strict descendant reaches its root through some direct child of it. -/
theorem descOrSelf_exists_child {docs : List Document} {par : Document → Option String}
    (hnd : (docs.map (fun d => d.id)).Nodup) {d : Document} (hd : d ∈ docs) {e : Document}
    (h : DescOrSelf docs par d.id e) :
    e ≠ d → ∃ c, c ∈ docs ∧ par c = some d.id ∧ DescOrSelf docs par c.id e := by
  induction h with
  | base e1 he1 hid1 =>
    intro hne
    exact absurd (id_inj docs hnd he1 hd hid1) hne
  | step p c hp hc hpc ih =>
    intro _
    by_cases hpd : p = d
    · subst hpd
      exact ⟨c, hc, hpc, DescOrSelf.base c hc rfl⟩
    · obtain ⟨c0, h1, h2, h3⟩ := ih hpd
      exact ⟨c0, h1, h2, DescOrSelf.step p c h3 hc hpc⟩

/-- At most one direct child of a node lies on the path to a given
descendant. -/
theorem descOrSelf_unique_child {docs : List Document} {par : Document → Option String}
    {rk : String → Nat} (hnd : (docs.map (fun d => d.id)).Nodup)
    (hrkpar : ∀ c ∈ docs, ∀ p ∈ docs, par c = some p.id → rk p.id < rk c.id)
    {d c1 c2 e : Document} (hd : d ∈ docs) (hc1 : c1 ∈ docs) (hc2 : c2 ∈ docs)
    (hp1 : par c1 = some d.id) (hp2 : par c2 = some d.id)
    (h1 : DescOrSelf docs par c1.id e) (h2 : DescOrSelf docs par c2.id e) : c1 = c2 := by
  have hsym : ∀ (u v : Document), u ∈ docs → par u = some d.id →
      par v = some d.id → DescOrSelf docs par u.id v → u = v := by
    intro u v hu hpu hpv huv
    cases huv with
    | base v2 hv2 hid2 => exact (id_inj docs hnd hv2 hu hid2).symm
    | step p2 c2x hp2x hc2x hpc2x =>
      have hpid : p2.id = d.id := Option.some.inj (hpc2x.symm.trans hpv)
      have hpeq : p2 = d := id_inj docs hnd (descOrSelf_mem hp2x) hd hpid
      have hle : rk u.id ≤ rk d.id := by
        have := descOrSelf_rank hrkpar (hpeq ▸ hp2x)
        exact this
      have hlt : rk d.id < rk u.id := hrkpar u hu d hd hpu
      omega
  rcases descOrSelf_total hnd h1 h2 with hl | hr
  · exact hsym c1 c2 hc1 hp1 hp2 (hl c2 hc2 rfl)
  · exact (hsym c2 c1 hc2 hp2 hp1 (hr c1 hc1 rfl)).symm

/-- A tree attachment implies the raw parent edge. -/
theorem attachedParent_sub (docs : List Document) (d : Document) (p : String)
    (h : attachedParent docs d = some p) : d.parent_id = some p := by
  cases hq : d.parent_id with
  | none => simp [attachedParent, hq] at h
  | some q =>
    simp only [attachedParent, hq, Option.some_bind] at h
    split at h
    · exact congrArg some (Option.some.inj h)
    · exact absurd h (by simp)

/-- A tree attachment names an id present in the set. -/
theorem attachedParent_some_mem (docs : List Document) (d : Document) (p : String)
    (h : attachedParent docs d = some p) : ∃ x ∈ docs, x.id = p := by
  cases hq : d.parent_id with
  | none => simp [attachedParent, hq] at h
  | some q =>
    simp only [attachedParent, hq, Option.some_bind] at h
    split at h
    · rename_i hcond
      cases Option.some.inj h
      obtain ⟨x, hx1, hx2⟩ := List.any_eq_true.mp hcond.2
      exact ⟨x, hx1, of_decide_eq_true hx2⟩
    · exact absurd h (by simp)

/-- A rank decreasing along raw parent edges also decreases along tree
attachments. -/
theorem hrk_attached (docs : List Document) (rk : String → Nat)
    (hrk : ∀ c ∈ docs, ∀ p ∈ docs, c.parent_id = some p.id → rk p.id < rk c.id) :
    ∀ c ∈ docs, ∀ p ∈ docs, attachedParent docs c = some p.id → rk p.id < rk c.id :=
  fun c hc p hp h => hrk c hc p hp (attachedParent_sub docs c p.id h)

/-- Membership in the children selection. -/
theorem mem_childDocs (docs : List Document) (pid : String) (c : Document) :
    c ∈ childDocs docs pid ↔ c ∈ docs ∧ attachedParent docs c = some pid := by
  simp [childDocs]

/-- Membership in the roots selection. -/
theorem mem_rootDocs (docs : List Document) (d : Document) :
    d ∈ rootDocs docs ↔ d ∈ docs ∧ attachedParent docs d = none := by
  simp [rootDocs]

/-- Forest flattening is binding over tree flattening. -/
theorem flattenForest_eq (ts : List TreeNode) :
    flattenForest ts = ts.flatMap flattenTree := by
  induction ts with
  | nil => rfl
  | cons t ts ih => rw [flattenForest, ih]; rfl

/-- Counting a document over a flattened forest, tree by tree. -/
theorem count_forest_sum (e : Document) (ts : List TreeNode) :
    List.count e (flattenForest ts) =
      (ts.map (fun t => List.count e (flattenTree t))).sum := by
  induction ts with
  | nil => rfl
  | cons t ts ih => rw [flattenForest, List.count_append, ih]; rfl

/-- Membership over a flattened forest. -/
theorem mem_flattenForest (x : Document) (ts : List TreeNode) :
    x ∈ flattenForest ts ↔ ∃ t ∈ ts, x ∈ flattenTree t := by
  rw [flattenForest_eq]
  exact List.mem_flatMap

/-- Membership over the parent-child pairs of a forest. -/
theorem mem_childPairsForest (q : Document × Document) (ts : List TreeNode) :
    q ∈ childPairsForest ts ↔ ∃ t ∈ ts, q ∈ childPairsTree t := by
  induction ts with
  | nil => simp [childPairsForest]
  | cons t ts ih =>
    rw [childPairsForest, List.mem_append, ih]
    constructor
    · rintro (h | ⟨u, hu, hq⟩)
      · exact ⟨t, by simp, h⟩
      · exact ⟨u, by simp [hu], hq⟩
    · rintro ⟨u, hu, hq⟩
      rcases List.mem_cons.mp hu with rfl | hu2
      · exact Or.inl hq
      · exact Or.inr ⟨u, hu2, hq⟩

/-- Inserting keeps the elements. -/
theorem insertNode_perm (t : TreeNode) (ts : List TreeNode) :
    (insertNode t ts).Perm (t :: ts) := by
  induction ts with
  | nil => exact List.Perm.refl _
  | cons u us ih =>
    unfold insertNode
    split
    · exact ((ih.cons u).trans (List.Perm.swap t u us))
    · exact List.Perm.refl _

/-- The sibling sort is a permutation. -/
theorem sortByOrder_perm (ts : List TreeNode) : (sortByOrder ts).Perm ts := by
  induction ts with
  | nil => exact List.Perm.refl _
  | cons t ts ih => exact (insertNode_perm t (sortByOrder ts)).trans (ih.cons t)

/-- Counting over a flattened forest is invariant under permuting the
forest. -/
theorem count_forest_perm (e : Document) {ts ts' : List TreeNode} (h : ts.Perm ts') :
    List.count e (flattenForest ts) = List.count e (flattenForest ts') := by
  rw [count_forest_sum, count_forest_sum]
  exact List.Perm.sum_eq (h.map _)

/-- Membership over a flattened forest is invariant under permuting the
forest. -/
theorem mem_forest_perm (x : Document) {ts ts' : List TreeNode} (h : ts.Perm ts') :
    x ∈ flattenForest ts ↔ x ∈ flattenForest ts' := by
  rw [mem_flattenForest, mem_flattenForest]
  constructor
  · rintro ⟨t, ht, hx⟩
    exact ⟨t, h.mem_iff.mp ht, hx⟩
  · rintro ⟨t, ht, hx⟩
    exact ⟨t, h.mem_iff.mpr ht, hx⟩

/-- The document at the top of a built node. -/
theorem rootDoc_buildNode (docs : List Document) (fuel : Nat) (d : Document) :
    rootDoc (buildNode docs fuel d) = d := by
  cases fuel <;> rfl

/-- A built node always has the given document at its top. -/
theorem buildNode_shape (docs : List Document) (fuel : Nat) (d : Document) :
    ∃ cs, buildNode docs fuel d = TreeNode.node d cs := by
  cases fuel <;> exact ⟨_, rfl⟩

/-- Every document of a built subtree comes from the document set. -/
theorem buildNode_flatten_sub (docs : List Document) :
    ∀ (fuel : Nat) (d : Document), d ∈ docs →
      ∀ x ∈ flattenTree (buildNode docs fuel d), x ∈ docs := by
  intro fuel
  induction fuel with
  | zero =>
    intro d hd x hx
    simp [buildNode, flattenTree, flattenForest] at hx
    exact hx ▸ hd
  | succ fuel ih =>
    intro d hd x hx
    rw [show buildNode docs (fuel + 1) d = TreeNode.node d
        (sortByOrder ((childDocs docs d.id).map (fun c => buildNode docs fuel c))) from rfl,
      flattenTree] at hx
    rcases List.mem_cons.mp hx with rfl | hx2
    · exact hd
    · have hmem := (mem_forest_perm x (sortByOrder_perm _)).mp hx2
      obtain ⟨t, ht, hxt⟩ := (mem_flattenForest x _).mp hmem
      obtain ⟨c, hc, rfl⟩ := List.mem_map.mp ht
      exact ih c ((mem_childDocs docs d.id c).mp hc).1 x hxt

/-- Summing a map that is one at a single list element and zero
elsewhere. -/
theorem sum_map_eq_one {α : Type} [DecidableEq α] (l : List α) (hl : l.Nodup) (c : α)
    (hc : c ∈ l) (f : α → Nat) (h1 : f c = 1) (h0 : ∀ x ∈ l, x ≠ c → f x = 0) :
    (l.map f).sum = 1 := by
  induction l with
  | nil => simp at hc
  | cons a as ih =>
    rcases List.mem_cons.mp hc with rfl | hc2
    · have hzero : (as.map f).sum = 0 := by
        apply List.sum_eq_zero
        intro y hy
        obtain ⟨x, hx, rfl⟩ := List.mem_map.mp hy
        exact h0 x (by simp [hx]) (fun hxa => (List.nodup_cons.mp hl).1 (hxa ▸ hx))
      simp [h1, hzero]
    · have ha0 : f a = 0 :=
        h0 a (by simp) (fun hac => (List.nodup_cons.mp hl).1 (hac ▸ hc2))
      have hrest := ih (List.nodup_cons.mp hl).2 hc2
        (fun x hx hxc => h0 x (by simp [hx]) hxc)
      simp [ha0, hrest]

/-- Counting one document over a built subtree: every document of the set
appears exactly once below its ancestor-or-self roots and nowhere else
(given distinct ids and a rank witnessing acyclicity). -/
theorem buildNode_count (docs : List Document) (rk : String → Nat)
    (hnd : (docs.map (fun d => d.id)).Nodup)
    (hrk : ∀ c ∈ docs, ∀ p ∈ docs, c.parent_id = some p.id → rk p.id < rk c.id)
    (hbound : ∀ d ∈ docs, rk d.id < docs.length)
    (e : Document) (he : e ∈ docs) :
    ∀ (fuel : Nat) (d : Document), d ∈ docs → docs.length ≤ fuel + rk d.id →
      (DescOrSelf docs (attachedParent docs) d.id e →
        List.count e (flattenTree (buildNode docs fuel d)) = 1) ∧
      (¬ DescOrSelf docs (attachedParent docs) d.id e →
        List.count e (flattenTree (buildNode docs fuel d)) = 0) := by
  have hpa := hrk_attached docs rk hrk
  have hdocsnd : docs.Nodup := List.Nodup.of_map _ hnd
  intro fuel
  induction fuel with
  | zero =>
    intro d hd hfuel
    exact False.elim (by have := hbound d hd; omega)
  | succ fuel ih =>
    intro d hd hfuel
    have hcnt : List.count e (flattenTree (buildNode docs (fuel + 1) d)) =
        ((childDocs docs d.id).map
          (fun c => List.count e (flattenTree (buildNode docs fuel c)))).sum +
          (if e = d then 1 else 0) := by
      rw [show flattenTree (buildNode docs (fuel + 1) d) = d :: flattenForest
          (sortByOrder ((childDocs docs d.id).map (fun c => buildNode docs fuel c)))
        from rfl]
      rw [List.count_cons, count_forest_perm e (sortByOrder_perm _), count_forest_sum,
        List.map_map]
      congr 1
      simp only [beq_iff_eq]
      by_cases h2 : d = e
      · subst h2
        rfl
      · rw [if_neg h2, if_neg (fun h => h2 h.symm)]
    have hchild : ∀ c ∈ childDocs docs d.id,
        c ∈ docs ∧ attachedParent docs c = some d.id :=
      fun c hc => (mem_childDocs docs d.id c).mp hc
    have hchildfuel : ∀ c ∈ childDocs docs d.id, docs.length ≤ fuel + rk c.id := by
      intro c hc
      obtain ⟨hcd, hcp⟩ := hchild c hc
      have := hpa c hcd d hd hcp
      omega
    constructor
    · intro hdesc
      by_cases hed : e = d
      · subst hed
        have hsum : ((childDocs docs e.id).map
            (fun c => List.count e (flattenTree (buildNode docs fuel c)))).sum = 0 := by
          apply List.sum_eq_zero
          intro y hy
          obtain ⟨c, hc, rfl⟩ := List.mem_map.mp hy
          refine (ih c (hchild c hc).1 (hchildfuel c hc)).2 ?_
          intro hdc
          obtain ⟨hcd, hcp⟩ := hchild c hc
          have h1 : rk c.id ≤ rk e.id := descOrSelf_rank hpa hdc
          have h2 : rk e.id < rk c.id := hpa c hcd e he hcp
          omega
        rw [hcnt, hsum]
        simp
      · obtain ⟨c0, hc0d, hc0p, hc0desc⟩ := descOrSelf_exists_child hnd hd hdesc hed
        have hc0mem : c0 ∈ childDocs docs d.id :=
          (mem_childDocs docs d.id c0).mpr ⟨hc0d, hc0p⟩
        have hone : ((childDocs docs d.id).map
            (fun c => List.count e (flattenTree (buildNode docs fuel c)))).sum = 1 := by
          apply sum_map_eq_one _ (hdocsnd.filter _) c0 hc0mem
          · exact (ih c0 hc0d (hchildfuel c0 hc0mem)).1 hc0desc
          · intro c hc hne
            refine (ih c (hchild c hc).1 (hchildfuel c hc)).2 ?_
            intro hdc
            exact hne (descOrSelf_unique_child hnd hpa hd (hchild c hc).1 hc0d
              (hchild c hc).2 hc0p hdc hc0desc)
        rw [hcnt, hone]
        simp [hed]
    · intro hnodesc
      have hed : ¬ e = d := by
        intro h2
        exact hnodesc (h2 ▸ DescOrSelf.base e he (by rw [h2]))
      have hsum : ((childDocs docs d.id).map
          (fun c => List.count e (flattenTree (buildNode docs fuel c)))).sum = 0 := by
        apply List.sum_eq_zero
        intro y hy
        obtain ⟨c, hc, rfl⟩ := List.mem_map.mp hy
        refine (ih c (hchild c hc).1 (hchildfuel c hc)).2 ?_
        intro hdc
        obtain ⟨hcd, hcp⟩ := hchild c hc
        exact hnodesc (descOrSelf_compose hnd
          (DescOrSelf.step d c (DescOrSelf.base d hd rfl) hcd hcp) hdc)
      rw [hcnt, hsum]
      simp [hed]

/-- Every document reaches some root of the forest through its attachment
chain. -/
theorem desc_root_exists (docs : List Document) (rk : String → Nat)
    (hrk : ∀ c ∈ docs, ∀ p ∈ docs, c.parent_id = some p.id → rk p.id < rk c.id)
    (e : Document) (he : e ∈ docs) :
    ∃ r ∈ rootDocs docs, DescOrSelf docs (attachedParent docs) r.id e := by
  have hpa := hrk_attached docs rk hrk
  suffices h : ∀ k, ∀ e2, e2 ∈ docs → rk e2.id < k →
      ∃ r ∈ rootDocs docs, DescOrSelf docs (attachedParent docs) r.id e2 by
    exact h (rk e.id + 1) e he (by omega)
  intro k
  induction k with
  | zero =>
    intro e2 _ h2
    omega
  | succ k ihk =>
    intro e2 he2 hk2
    cases hpae : attachedParent docs e2 with
    | none =>
      exact ⟨e2, (mem_rootDocs docs e2).mpr ⟨he2, hpae⟩, DescOrSelf.base e2 he2 rfl⟩
    | some pid =>
      obtain ⟨p, hp, hpid⟩ := attachedParent_some_mem docs e2 pid hpae
      have hedge : attachedParent docs e2 = some p.id := by rw [hpae, hpid]
      have hlt : rk p.id < rk e2.id := hpa e2 he2 p hp hedge
      obtain ⟨r, hr1, hr2⟩ := ihk p hp (by omega)
      exact ⟨r, hr1, DescOrSelf.step p e2 hr2 he2 hedge⟩

/-- A document lies below at most one root. -/
theorem desc_root_unique (docs : List Document)
    (hnd : (docs.map (fun d => d.id)).Nodup) {r1 r2 e : Document}
    (h1mem : r1 ∈ rootDocs docs) (h2mem : r2 ∈ rootDocs docs)
    (h1 : DescOrSelf docs (attachedParent docs) r1.id e)
    (h2 : DescOrSelf docs (attachedParent docs) r2.id e) : r1 = r2 := by
  have hr1 := (mem_rootDocs docs r1).mp h1mem
  have hr2 := (mem_rootDocs docs r2).mp h2mem
  have hside : ∀ (a b : Document), a ∈ docs → attachedParent docs b = none →
      DescOrSelf docs (attachedParent docs) a.id b → a = b := by
    intro a b ha hbroot hab
    cases hab with
    | base z hz hidz => exact (id_inj docs hnd hz ha hidz).symm
    | step p c hp hc hpc =>
      rw [hbroot] at hpc
      exact absurd hpc (by simp)
  rcases descOrSelf_total hnd h1 h2 with hl | hr
  · exact hside r1 r2 hr1.1 hr2.2 (hl r2 hr2.1 rfl)
  · exact (hside r2 r1 hr2.1 hr1.2 (hr r1 hr1.1 rfl)).symm

/-- Each document of the set occurs exactly once in the flattened built
forest. -/
theorem buildDocumentTree_count_one (docs : List Document) (rk : String → Nat)
    (hnd : (docs.map (fun d => d.id)).Nodup)
    (hrk : ∀ c ∈ docs, ∀ p ∈ docs, c.parent_id = some p.id → rk p.id < rk c.id)
    (hbound : ∀ d ∈ docs, rk d.id < docs.length)
    (e : Document) (he : e ∈ docs) :
    List.count e (flattenForest (buildDocumentTree docs)) = 1 := by
  unfold buildDocumentTree
  rw [count_forest_perm e (sortByOrder_perm _), count_forest_sum, List.map_map]
  obtain ⟨r0, hr0mem, hr0desc⟩ := desc_root_exists docs rk hrk e he
  apply sum_map_eq_one _ ((List.Nodup.of_map _ hnd).filter _) r0 hr0mem
  · exact (buildNode_count docs rk hnd hrk hbound e he docs.length r0
      ((mem_rootDocs docs r0).mp hr0mem).1 (by omega)).1 hr0desc
  · intro r hr hne
    refine (buildNode_count docs rk hnd hrk hbound e he docs.length r
      ((mem_rootDocs docs r).mp hr).1 (by omega)).2 ?_
    intro hdesc
    exact hne (desc_root_unique docs hnd hr hr0mem hdesc hr0desc)

/-- The flattened built forest only contains documents of the set. -/
theorem buildTree_flatten_sub (docs : List Document) :
    ∀ x ∈ flattenForest (buildDocumentTree docs), x ∈ docs := by
  intro x hx
  unfold buildDocumentTree at hx
  have hx2 := (mem_forest_perm x (sortByOrder_perm _)).mp hx
  obtain ⟨t, ht, hxt⟩ := (mem_flattenForest x _).mp hx2
  obtain ⟨r, hr, rfl⟩ := List.mem_map.mp ht
  exact buildNode_flatten_sub docs docs.length r ((mem_rootDocs docs r).mp hr).1 x hxt

/-- Both components of every parent-child pair of a built subtree come from
the document set. -/
theorem buildNode_childPairs_sub (docs : List Document) :
    ∀ (fuel : Nat) (d : Document), d ∈ docs →
      ∀ q ∈ childPairsTree (buildNode docs fuel d), q.1 ∈ docs ∧ q.2 ∈ docs := by
  intro fuel
  induction fuel with
  | zero =>
    intro d hd q hq
    simp [buildNode, childPairsTree, childPairsForest] at hq
  | succ fuel ih =>
    intro d hd q hq
    rw [show childPairsTree (buildNode docs (fuel + 1) d) =
        (sortByOrder ((childDocs docs d.id).map (fun c => buildNode docs fuel c))).map
          (fun c => (d, rootDoc c)) ++
        childPairsForest
          (sortByOrder ((childDocs docs d.id).map (fun c => buildNode docs fuel c)))
      from rfl] at hq
    rcases List.mem_append.mp hq with hq1 | hq2
    · obtain ⟨t, ht, rfl⟩ := List.mem_map.mp hq1
      have ht2 := (sortByOrder_perm _).mem_iff.mp ht
      obtain ⟨c, hc, rfl⟩ := List.mem_map.mp ht2
      rw [rootDoc_buildNode]
      exact ⟨hd, ((mem_childDocs docs d.id c).mp hc).1⟩
    · obtain ⟨t, ht, hqt⟩ := (mem_childPairsForest q _).mp hq2
      have ht2 := (sortByOrder_perm _).mem_iff.mp ht
      obtain ⟨c, hc, rfl⟩ := List.mem_map.mp ht2
      exact ih c ((mem_childDocs docs d.id c).mp hc).1 q hqt

/-- Both components of every parent-child pair of the built forest come
from the document set. -/
theorem buildTree_childPairs_sub (docs : List Document) :
    ∀ q ∈ childPairsForest (buildDocumentTree docs), q.1 ∈ docs ∧ q.2 ∈ docs := by
  intro q hq
  unfold buildDocumentTree at hq
  obtain ⟨t, ht, hqt⟩ := (mem_childPairsForest q _).mp hq
  have ht2 := ((sortByOrder_perm _).mem_iff).mp ht
  obtain ⟨r, hr, rfl⟩ := List.mem_map.mp ht2
  exact buildNode_childPairs_sub docs docs.length r ((mem_rootDocs docs r).mp hr).1 q hqt

/-- C4 counterexample: buildDocumentTree attaches by id presence alone and
does not compare projects, so a document of another project whose
parent_id names a document of the input is attached below it — the
claimed no-cross-project-leakage fails for mixed-project inputs. -/
theorem c4_counterexample :
    dX.project_id ≠ dY.project_id ∧
    (dX, dY) ∈ childPairsForest (buildDocumentTree [dX, dY]) := by
  constructor
  · decide
  · decide

/-- C4 amended: for a flat list with distinct ids and an acyclic parent
relation (witnessed by a rank), the built forest contains exactly the
input documents, each exactly once; when the input documents all belong to
one project — as the per-project fetch guarantees — every child belongs to
the same project as its parent node; and every document whose parent is
missing from the input (or null) appears as a root. -/
theorem c4_buildTree_amended (docs : List Document) (rk : String → Nat)
    (hnd : (docs.map (fun d => d.id)).Nodup)
    (hrk : ∀ c ∈ docs, ∀ p ∈ docs, c.parent_id = some p.id → rk p.id < rk c.id)
    (hbound : ∀ d ∈ docs, rk d.id < docs.length) :
    (flattenForest (buildDocumentTree docs)).Perm docs ∧
    (∀ pid : String, (∀ d ∈ docs, d.project_id = pid) →
      ∀ q ∈ childPairsForest (buildDocumentTree docs),
        q.1.project_id = q.2.project_id) ∧
    (∀ d ∈ docs, attachedParent docs d = none →
      ∃ cs, TreeNode.node d cs ∈ buildDocumentTree docs) := by
  refine ⟨?_, ?_, ?_⟩
  · rw [List.perm_iff_count]
    intro a
    by_cases ha : a ∈ docs
    · rw [buildDocumentTree_count_one docs rk hnd hrk hbound a ha,
        List.count_eq_one_of_mem (List.Nodup.of_map _ hnd) ha]
    · rw [List.count_eq_zero_of_not_mem ha,
        List.count_eq_zero_of_not_mem (fun hmem => ha (buildTree_flatten_sub docs a hmem))]
  · intro pid hproj q hq
    obtain ⟨h1, h2⟩ := buildTree_childPairs_sub docs q hq
    rw [hproj q.1 h1, hproj q.2 h2]
  · intro d hd hpa
    obtain ⟨cs, hcs⟩ := buildNode_shape docs docs.length d
    refine ⟨cs, ?_⟩
    have hmem : buildNode docs docs.length d ∈
        (rootDocs docs).map (fun x => buildNode docs docs.length x) :=
      List.mem_map_of_mem _ ((mem_rootDocs docs d).mpr ⟨hd, hpa⟩)
    exact (sortByOrder_perm _).mem_iff.mpr (hcs ▸ hmem)

/-- Witness for C4's amended theorem on a concrete four-document
single-project forest. -/
theorem c4_witness :
    (flattenForest (buildDocumentTree [dA, dB, dC, dD])).Perm [dA, dB, dC, dD] ∧
    (∀ q ∈ childPairsForest (buildDocumentTree [dA, dB, dC, dD]),
      q.1.project_id = q.2.project_id) ∧
    (∃ cs, TreeNode.node dA cs ∈ buildDocumentTree [dA, dB, dC, dD]) := by
  have h := c4_buildTree_amended [dA, dB, dC, dD]
    (fun i => if i = "b" then 1 else if i = "c" then 2 else 0)
    (by decide) (by decide) (by decide)
  exact ⟨h.1, h.2.1 "P" (by decide), h.2.2 dA (by decide) (by decide)⟩

/-- Unfolding collectIds at positive fuel. -/
theorem collectIds_succ (docs : List Document) (f : Nat) (i : String) :
    collectIds docs (f + 1) i =
      i :: (docs.filter (fun d => decide (d.parent_id = some i))).flatMap
        (fun c => collectIds docs f c.id) := rfl

/-- The root id is always collected. -/
theorem collectIds_self (docs : List Document) : ∀ (fuel : Nat) (i : String),
    i ∈ collectIds docs fuel i := by
  intro fuel i
  cases fuel <;> simp [collectIds]

/-- Collected ids stay collected with more fuel. -/
theorem collectIds_mono (docs : List Document) : ∀ (fuel : Nat) (i a : String),
    a ∈ collectIds docs fuel i → a ∈ collectIds docs (fuel + 1) i := by
  intro fuel
  induction fuel with
  | zero =>
    intro i a ha
    simp [collectIds] at ha
    simp [collectIds, ha]
  | succ fuel ih =>
    intro i a ha
    rw [collectIds_succ] at ha
    rw [collectIds_succ]
    rcases List.mem_cons.mp ha with rfl | ha2
    · exact List.mem_cons_self _ _
    · obtain ⟨c, hc, hac⟩ := List.mem_flatMap.mp ha2
      exact List.mem_cons_of_mem _ (List.mem_flatMap.mpr ⟨c, hc, ih c.id a hac⟩)

/-- Monotonicity of collection in the fuel. -/
theorem collectIds_mono_le (docs : List Document) {f g : Nat} (hfg : f ≤ g) :
    ∀ (i a : String), a ∈ collectIds docs f i → a ∈ collectIds docs g i := by
  induction g, hfg using Nat.le_induction with
  | base => exact fun i a h => h
  | succ g hg ih => exact fun i a h => collectIds_mono docs g i a (ih i a h)

/-- A child of any collected id is collected at the next fuel level. -/
theorem collectIds_attach (docs : List Document) : ∀ (fuel : Nat) (i p : String)
    (c : Document), c ∈ docs → c.parent_id = some p →
    p ∈ collectIds docs fuel i → c.id ∈ collectIds docs (fuel + 1) i := by
  intro fuel
  induction fuel with
  | zero =>
    intro i p c hc hcp hp
    simp [collectIds] at hp
    subst hp
    rw [collectIds_succ]
    apply List.mem_cons_of_mem
    refine List.mem_flatMap.mpr ⟨c, List.mem_filter.mpr ⟨hc, by simp [hcp]⟩, ?_⟩
    simp [collectIds]
  | succ fuel ih =>
    intro i p c hc hcp hp
    rw [collectIds_succ] at hp
    rw [collectIds_succ]
    rcases List.mem_cons.mp hp with rfl | hp2
    · apply List.mem_cons_of_mem
      exact List.mem_flatMap.mpr ⟨c, List.mem_filter.mpr ⟨hc, by simp [hcp]⟩,
        collectIds_self docs (fuel + 1) c.id⟩
    · obtain ⟨q, hq, hpq⟩ := List.mem_flatMap.mp hp2
      exact List.mem_cons_of_mem _
        (List.mem_flatMap.mpr ⟨q, hq, ih q.id p c hc hcp hpq⟩)

/-- Soundness of the subtree collection: every collected id names a
descendant-or-self of the deleted document. -/
theorem collectIds_sound (docs : List Document)
    (hnd : (docs.map (fun d => d.id)).Nodup) : ∀ (fuel : Nat) (i a : String),
    a ∈ collectIds docs fuel i → ∀ idoc ∈ docs, idoc.id = i →
    ∀ target ∈ docs, target.id = a → DescOrSelf docs rawParent i target := by
  intro fuel
  induction fuel with
  | zero =>
    intro i a ha idoc hidoc hid target htarget hta
    simp [collectIds] at ha
    subst ha
    exact DescOrSelf.base target htarget hta
  | succ fuel ih =>
    intro i a ha idoc hidoc hid target htarget hta
    rw [collectIds_succ] at ha
    rcases List.mem_cons.mp ha with rfl | ha2
    · exact DescOrSelf.base target htarget hta
    · obtain ⟨c, hcf, hac⟩ := List.mem_flatMap.mp ha2
      have hcmem : c ∈ docs := (List.mem_filter.mp hcf).1
      have hcp : c.parent_id = some i := by
        have := (List.mem_filter.mp hcf).2
        simpa using this
      have hdic : DescOrSelf docs rawParent i c := by
        refine DescOrSelf.step idoc c (DescOrSelf.base idoc hidoc hid) hcmem ?_
        show c.parent_id = some idoc.id
        rw [hcp, hid]
      exact descOrSelf_compose hnd hdic (ih c.id a hac c hcmem rfl target htarget hta)

/-- Completeness of the subtree collection: every descendant-or-self is
collected once the fuel covers its rank. -/
theorem collectIds_complete (docs : List Document) (rk : String → Nat)
    (hrk : ∀ c ∈ docs, ∀ p ∈ docs, c.parent_id = some p.id → rk p.id < rk c.id)
    {i : String} {e : Document} (h : DescOrSelf docs rawParent i e) :
    e.id ∈ collectIds docs (rk e.id + 1) i := by
  induction h with
  | base e he hid =>
    rw [hid]
    exact collectIds_self docs _ i
  | step p c hp hc hpc ih =>
    have h1 : c.id ∈ collectIds docs (rk p.id + 1 + 1) i :=
      collectIds_attach docs (rk p.id + 1) i p.id c hc hpc ih
    have hlt : rk p.id < rk c.id := hrk c hc p (descOrSelf_mem hp) hpc
    exact collectIds_mono_le docs (by omega) i c.id h1

/-- Splitting a list's length by a decidable predicate. -/
theorem length_filter_not_add (l : List Document) (p : Document → Prop)
    [DecidablePred p] :
    (l.filter (fun x => decide (¬ p x))).length +
      (l.filter (fun x => decide (p x))).length = l.length := by
  induction l with
  | nil => rfl
  | cons a as ih =>
    simp only [decide_not] at ih ⊢
    by_cases h : p a
    · simp [List.filter_cons, h]
      omega
    · simp [List.filter_cons, h]
      omega

/-- C5: deleteDocument removes exactly the documents whose ancestor chain
includes the deleted id (the collected subtree), and the remaining count
plus the removed subtree's size is the original count. -/
theorem c5_deleteDocument_removes_subtree (s : StoreState) (documentId : String)
    (rk : String → Nat)
    (hnd : (s.documents.map (fun d => d.id)).Nodup)
    (hrk : ∀ c ∈ s.documents, ∀ p ∈ s.documents,
      c.parent_id = some p.id → rk p.id < rk c.id)
    (hbound : ∀ d ∈ s.documents, rk d.id < s.documents.length)
    (idoc : Document) (hidoc : idoc ∈ s.documents) (hidocid : idoc.id = documentId) :
    (deleteDocument s documentId true).1 = true ∧
    (∀ e ∈ s.documents,
      e ∈ (deleteDocument s documentId true).2.documents ↔
        ¬ DescOrSelf s.documents rawParent documentId e) ∧
    (deleteDocument s documentId true).2.documents.length +
      (s.documents.filter (fun d =>
        decide (d.id ∈ collectIds s.documents s.documents.length documentId))).length =
      s.documents.length := by
  have hiff : ∀ e ∈ s.documents,
      (e.id ∈ collectIds s.documents s.documents.length documentId ↔
        DescOrSelf s.documents rawParent documentId e) := by
    intro e he
    constructor
    · intro h
      exact collectIds_sound s.documents hnd s.documents.length documentId e.id h
        idoc hidoc hidocid e he rfl
    · intro h
      have h1 := collectIds_complete s.documents rk hrk h
      have h2 : rk e.id + 1 ≤ s.documents.length := by
        have := hbound e (descOrSelf_mem h)
        omega
      exact collectIds_mono_le s.documents h2 documentId e.id h1
  refine ⟨rfl, ?_, ?_⟩
  · intro e he
    show e ∈ s.documents.filter (fun d =>
        decide (¬ d.id ∈ collectIds s.documents s.documents.length documentId)) ↔ _
    rw [List.mem_filter]
    constructor
    · rintro ⟨_, hpred⟩
      intro hdesc
      have hin := (hiff e he).mpr hdesc
      simp at hpred
      exact hpred hin
    · intro hndesc
      refine ⟨he, ?_⟩
      simp only [decide_eq_true_eq]
      intro hid
      exact hndesc ((hiff e he).mp hid)
  · show (s.documents.filter (fun d =>
        decide (¬ d.id ∈ collectIds s.documents s.documents.length documentId))).length +
      (s.documents.filter (fun d =>
        decide (d.id ∈ collectIds s.documents s.documents.length documentId))).length =
      s.documents.length
    exact length_filter_not_add s.documents
      (fun d => d.id ∈ collectIds s.documents s.documents.length documentId)

/-- Witness for C5: deleting the middle document of a four-document chain
removes exactly its two-document subtree. -/
theorem c5_witness :
    (deleteDocument (sampleState [dA, dB, dC, dD]) "b" true).1 = true ∧
    (deleteDocument (sampleState [dA, dB, dC, dD]) "b" true).2.documents = [dA, dD] ∧
    (deleteDocument (sampleState [dA, dB, dC, dD]) "b" true).2.documents.length +
      ((sampleState [dA, dB, dC, dD]).documents.filter (fun d =>
        decide (d.id ∈ collectIds (sampleState [dA, dB, dC, dD]).documents
          (sampleState [dA, dB, dC, dD]).documents.length "b"))).length =
      (sampleState [dA, dB, dC, dD]).documents.length := by
  have h := c5_deleteDocument_removes_subtree (sampleState [dA, dB, dC, dD]) "b"
    (fun i => if i = "b" then 1 else if i = "c" then 2 else 0)
    (by decide) (by decide) (by decide) dB (by decide) (by rfl)
  exact ⟨h.1, by rfl, h.2.2⟩

end LetMarkdown
